import Mathlib

/-!
# Verification of the Hydra Notes block tree subsystem

Shallow embedding of the block CRUD endpoints of the repository
(`backend/app/api/routes/blocks.py` together with the user-scoping helpers of
`backend/app/middleware/mongo_auth.py` and the schemas of
`backend/app/models/block.py`).

Modelling choices:
* MongoDB `ObjectId`s are modelled as `Nat`; user ids stay `String` as in the
  source.  Timestamps (`datetime.utcnow()`) are modelled as `Nat` values passed
  in explicitly as `now`.
* The blocks collection is a `List Block` in insertion order (MongoDB natural
  order).  `find_one` is `List.find?`, `update_one`/`find_one_and_update` on an
  `_id` filter is a map that rewrites the (unique) matching document,
  `update_many` with an `$in` filter is a map over the whole list, and
  `insert_one` appends.
* Endpoints that write return the new store together with the response; on an
  error (`HTTPException`) they return the store unchanged, which is faithful
  because every `raise` in the source happens before the first write of the
  handler.
* `$graphLookup` is modelled as a breadth-first traversal with an explicit
  visited set (MongoDB tracks visited documents to avoid infinite recursion).
  MongoDB assigns recursion depth 0 to the documents matched by `startWith`,
  and `maxDepth: d` admits recursion depths `0 .. d`; the traversal below
  therefore runs `d + 1` levels for `maxDepth = d`, and `store.length` levels
  for the unbounded lookup used by delete (enough to exhaust any store whose
  ids are distinct).
* Fields the handlers never read (`portals_in`, `portal_of`, `references`,
  `backlinks`, `tags`, `crdt_clock`) are carried by the source verbatim and
  never consulted by any verified operation; they are omitted from the record.
* `block_to_response` only stringifies identifiers; operations here return the
  stored documents themselves.
-/

/-- `BlockContent` of `models/block.py`: text payload (the `content_type`
discriminator is the constant `"text"`). -/
structure BlockContent where
  text : String
deriving Repr, DecidableEq

/-- `BlockProps` of `models/block.py`. -/
structure BlockProps where
  markerType : Option String
  markerColor : Option String
deriving Repr, DecidableEq

/-- `BlockUIState` of `models/block.py`. -/
structure BlockUIState where
  isCollapsed : Bool
  collapsedSeparator : String
  lastExpandTimestamp : Option Nat
deriving Repr, DecidableEq

/-- The default `ui_state` document written by `create_block` when the request
carries none. -/
def defaultUIState : BlockUIState :=
  { isCollapsed := false, collapsedSeparator := " + ", lastExpandTimestamp := none }

/-- A persisted block document (collection `blocks`). -/
structure Block where
  id : Nat
  userId : String
  parentId : Option Nat
  children : List Nat
  order : Int
  depth : Nat
  content : BlockContent
  blockType : String
  blockProps : Option BlockProps
  uiState : BlockUIState
  version : Nat
  createdAt : Nat
  updatedAt : Nat
  deletedAt : Option Nat
deriving Repr, DecidableEq

/-- Error taxonomy of the handlers: 404 "not found", the 400 raised for a
self-move ("Cannot move block to itself"), and the 400 raised for a malformed
identifier string (unreachable in this embedding, where ids are already
parsed). -/
inductive BlockErr where
  | notFound
  | invalidOperation
  | invalidReference
deriving Repr, DecidableEq

deriving instance DecidableEq for Except

/-- `user_scoped_query` of `mongo_auth.py`: filter on `user_id` and
`deleted_at: None`, as a predicate on documents. -/
def userScopedQuery (uid : String) (b : Block) : Bool :=
  b.userId == uid && b.deletedAt.isNone

/-- The document filter `{_id: bid, **user_scoped_query(uid)}` used by
`require_block_ownership` and by the handlers' own lookups. -/
def liveOwnedP (uid : String) (bid : Nat) (b : Block) : Bool :=
  b.id == bid && userScopedQuery uid b

/-- `find_one({_id: bid, **user_scoped_query(uid)})`: also the body of
`require_block_ownership` (which raises 404 when this is `none`). -/
def findLiveOwned (store : List Block) (uid : String) (bid : Nat) : Option Block :=
  store.find? (liveOwnedP uid bid)

/-- `update_one({_id: bid}, ...)` / `find_one_and_update({_id: bid}, ...)`:
rewrite the document whose `_id` is `bid` (ids are unique in every reachable
store, so the first match is the only match). -/
def updateById (store : List Block) (bid : Nat) (f : Block → Block) : List Block :=
  store.map (fun b => if b.id = bid then f b else b)

/-- Stable insertion into a list sorted by ascending `order` (equal keys keep
their relative position, matching MongoDB's stable `sort("order", 1)`). -/
def insertByOrder (b : Block) : List Block → List Block
  | [] => [b]
  | c :: rest => if b.order ≤ c.order then b :: c :: rest else c :: insertByOrder b rest

/-- `cursor.sort("order", 1)`: stable sort by ascending `order`. -/
def sortByOrder : List Block → List Block
  | [] => []
  | b :: rest => insertByOrder b (sortByOrder rest)

/-- One `$graphLookup` expansion step: the documents whose `_id` is in the
current frontier, that pass `restrictSearchWithMatch: {deleted_at: None}`, and
that were not already collected. -/
def glNew (store : List Block) (frontier : List Nat) (visited : List Nat) : List Block :=
  store.filter (fun b => frontier.contains b.id && b.deletedAt.isNone && !(visited.contains b.id))

/-- Fuel-indexed breadth-first `$graphLookup` traversal: each level resolves
the frontier ids into live unvisited documents, collects them, and continues
from their `children`. -/
def glAux (store : List Block) : Nat → List Nat → List Block → List Block
  | 0, _, acc => acc
  | fuel + 1, frontier, acc =>
      let nw := glNew store frontier (acc.map (·.id))
      glAux store fuel (nw.flatMap (·.children)) (acc ++ nw)

/-- `$graphLookup {from: blocks, startWith: $children, connectFromField:
children, connectToField: _id, restrictSearchWithMatch: {deleted_at: None}}`
run for `levels` expansion steps. -/
def graphLookupDescendants (store : List Block) (startWith : List Nat) (levels : Nat) :
    List Block :=
  glAux store levels startWith []

/-- The tri-state `parent_id` query parameter of `list_blocks`: omitted/empty
(roots), the literal `"all"`, or a concrete parent id. -/
inductive ParentFilter where
  | roots
  | all
  | child (pid : Nat)
deriving Repr, DecidableEq

/-- `BlockListResponse`. -/
structure BlockListResult where
  blocks : List Block
  total : Nat
deriving Repr, DecidableEq

/-- `BlockTreeResponse`. -/
structure BlockTreeResult where
  block : Block
  descendants : List Block
deriving Repr, DecidableEq


/-- The `$push`-with-timestamp write applied to a parent document:
`{"$push": {"children": cid}, "$set": {"updated_at": now}}`. -/
def pushChild (cid now : Nat) (b : Block) : Block :=
  { b with children := b.children ++ [cid], updatedAt := now }

/-- The `$pull`-with-timestamp write applied to a parent document:
`{"$pull": {"children": cid}, "$set": {"updated_at": now}}` (removes every
occurrence). -/
def pullChild (cid now : Nat) (b : Block) : Block :=
  { b with children := b.children.filter (fun c => c != cid), updatedAt := now }

/-- The `$set`/`$inc` write `move_block` applies to the moved block itself. -/
def setMoved (newParentId : Option Nat) (newOrder : Int) (newDepth now : Nat)
    (b : Block) : Block :=
  { b with parentId := newParentId, order := newOrder, depth := newDepth,
           updatedAt := now, version := b.version + 1 }

/-- The soft-delete write of `update_many`:
`{"$set": {"deleted_at": now, "updated_at": now}}`. -/
def markDeleted (now : Nat) (b : Block) : Block :=
  { b with deletedAt := some now, updatedAt := now }

/-- The filter built by `list_blocks`: `user_scoped_query` plus the tri-state
parent filter. -/
def listBlocksP (uid : String) (pf : ParentFilter) (b : Block) : Bool :=
  userScopedQuery uid b &&
    match pf with
    | .roots => b.parentId == none
    | .all => true
    | .child pid => b.parentId == some pid

/-- `GET /blocks` (`list_blocks`): filter, sort by ascending `order`, apply
`skip(offset).limit(limit)`, and count the full match for `total`. -/
def listBlocks (store : List Block) (uid : String) (pf : ParentFilter)
    (limit offset : Nat) : BlockListResult :=
  let matching := store.filter (listBlocksP uid pf)
  { blocks := ((sortByOrder matching).drop offset).take limit
    total := matching.length }

/-- `GET /blocks/{id}` (`get_block`): the `require_block_ownership` dependency
and the handler's own `find_one` use the identical filter, so one lookup
decides both. -/
def getBlock (store : List Block) (uid : String) (bid : Nat) : Except BlockErr Block :=
  match findLiveOwned store uid bid with
  | none => .error .notFound
  | some b => .ok b

/-- `GET /blocks/{id}/tree` (`get_block_tree`): the ownership dependency (which
checks liveness), then the pipeline `$match {_id, user_id}` (no liveness
condition of its own) followed by the depth-bounded `$graphLookup`
(`maxDepth = d` admits recursion depths `0 .. d`, i.e. `d + 1` levels). -/
def getBlockTree (store : List Block) (uid : String) (bid : Nat) (maxDepth : Nat) :
    Except BlockErr BlockTreeResult :=
  match findLiveOwned store uid bid with
  | none => .error .notFound
  | some _ =>
    match store.find? (fun b => b.id == bid && b.userId == uid) with
    | none => .error .notFound
    | some doc =>
      .ok { block := doc
            descendants := graphLookupDescendants store doc.children (maxDepth + 1) }

/-- `BlockCreate` of `models/block.py`. -/
structure BlockCreate where
  parentId : Option Nat
  content : BlockContent
  blockType : String
  blockProps : Option BlockProps
  uiState : Option BlockUIState
  order : Option Int
deriving Repr, DecidableEq

/-- `find_one(siblings_query, sort=[("order", -1)])`: the first document of the
order-descending stable sort, i.e. the earliest document carrying the maximal
`order`. -/
def maxOrderDoc : List Block → Option Block
  | [] => none
  | b :: rest =>
    match maxOrderDoc rest with
    | none => some b
    | some m => if m.order > b.order then some m else some b

/-- The document `create_block` inserts. -/
def newBlockDoc (uid : String) (data : BlockCreate) (parentOid : Option Nat)
    (order : Int) (depth : Nat) (newId now : Nat) : Block :=
  { id := newId
    userId := uid
    parentId := parentOid
    children := []
    order := order
    depth := depth
    content := data.content
    blockType := data.blockType
    blockProps := data.blockProps
    uiState := data.uiState.getD defaultUIState
    version := 1
    createdAt := now
    updatedAt := now
    deletedAt := none }

/-- The tail of `create_block` once the parent (if any) has been validated:
compute `order` when omitted, insert the document, then `$push` the new id onto
the parent's `children` and refresh its `updated_at`. -/
def createGo (store : List Block) (uid : String) (data : BlockCreate)
    (parentOid : Option Nat) (depth : Nat) (newId now : Nat) :
    List Block × Except BlockErr Block :=
  let order :=
    match data.order with
    | some o => o
    | none =>
      match maxOrderDoc (store.filter (fun b => userScopedQuery uid b && b.parentId == parentOid)) with
      | some m => m.order + 1
      | none => 0
  let doc := newBlockDoc uid data parentOid order depth newId now
  let store1 := store ++ [doc]
  let store2 :=
    match parentOid with
    | some pid =>
      updateById store1 pid (pushChild newId now)
    | none => store1
  (store2, .ok doc)

/-- `POST /blocks` (`create_block`): validate the parent (live and owned, 404
otherwise), derive `depth`, then `createGo`.  `newId` stands for the fresh
`ObjectId` the store mints for `insert_one`. -/
def createBlock (store : List Block) (uid : String) (data : BlockCreate)
    (newId now : Nat) : List Block × Except BlockErr Block :=
  match data.parentId with
  | some pid =>
    match findLiveOwned store uid pid with
    | none => (store, .error .notFound)
    | some parent => createGo store uid data (some pid) (parent.depth + 1) newId now
  | none => createGo store uid data none 0 newId now

/-- `BlockUpdate` of `models/block.py`. -/
structure BlockUpdate where
  content : Option BlockContent
  blockType : Option String
  blockProps : Option BlockProps
  uiState : Option BlockUIState
deriving Repr, DecidableEq

/-- The `$set`/`$inc` document of `update_block`: `updated_at` always, each
payload field only when present, plus `version + 1`. -/
def applyUpdate (data : BlockUpdate) (now : Nat) (b : Block) : Block :=
  let b1 := { b with updatedAt := now }
  let b2 := match data.content with
    | some c => { b1 with content := c }
    | none => b1
  let b3 := match data.blockType with
    | some t => { b2 with blockType := t }
    | none => b2
  let b4 := match data.blockProps with
    | some p => { b3 with blockProps := some p }
    | none => b3
  let b5 := match data.uiState with
    | some u => { b4 with uiState := u }
    | none => b4
  { b5 with version := b5.version + 1 }

/-- `PATCH /blocks/{id}` (`update_block`): the ownership dependency and the
`find_one_and_update` filter coincide (`{_id, **user_scoped_query}`), the
update applies `applyUpdate`, and `return_document=True` yields the updated
document. -/
def updateBlock (store : List Block) (uid : String) (bid : Nat)
    (data : BlockUpdate) (now : Nat) : List Block × Except BlockErr Block :=
  match findLiveOwned store uid bid with
  | none => (store, .error .notFound)
  | some b => (updateById store bid (applyUpdate data now), .ok (applyUpdate data now b))

/-- `BlockMove` of `models/block.py`. -/
structure BlockMove where
  newParentId : Option Nat
  newOrder : Int
deriving Repr, DecidableEq

/-- The optional `$pull` from the old parent (`if old_parent_id:`). -/
def optPull (store : List Block) (oldParentId : Option Nat) (bid now : Nat) : List Block :=
  match oldParentId with
  | some op => updateById store op (pullChild bid now)
  | none => store

/-- The optional `$push` onto the new parent (`if new_parent_oid:`). -/
def optPush (store : List Block) (newParentId : Option Nat) (bid now : Nat) : List Block :=
  match newParentId with
  | some np => updateById store np (pushChild bid now)
  | none => store

/-- The three structural writes of `move_block`: `$pull` the id from the old
parent's `children`, `$push` it onto the new parent's, then
`find_one_and_update` on the block itself (`parent_id`, `order`, `depth`,
`updated_at`, `$inc version`), returning the updated document. -/
def moveGo (store : List Block) (bid : Nat) (oldParentId newParentId : Option Nat)
    (newDepth : Nat) (newOrder : Int) (now : Nat) :
    List Block × Except BlockErr Block :=
  let s1 := optPull store oldParentId bid now
  let s2 := optPush s1 newParentId bid now
  let s3 := updateById s2 bid (setMoved newParentId newOrder newDepth now)
  match s3.find? (fun b => b.id == bid) with
  | some b => (s3, .ok b)
  | none => (s3, .error .notFound)

/-- `POST /blocks/{id}/move` (`move_block`): load the current block (404), for
a requested new parent reject the direct self-move (400) and validate the
parent (404) deriving `newDepth = parent.depth + 1`, else `newDepth = 0`; then
the three structural writes. -/
def moveBlock (store : List Block) (uid : String) (bid : Nat) (data : BlockMove)
    (now : Nat) : List Block × Except BlockErr Block :=
  match findLiveOwned store uid bid with
  | none => (store, .error .notFound)
  | some current =>
    match data.newParentId with
    | some npid =>
      if npid = bid then (store, .error .invalidOperation)
      else
        match findLiveOwned store uid npid with
        | none => (store, .error .notFound)
        | some np => moveGo store bid current.parentId (some npid) (np.depth + 1) data.newOrder now
    | none => moveGo store bid current.parentId none 0 data.newOrder now

/-- `DELETE /blocks/{id}` (`delete_block`): the ownership dependency, the
pipeline `$match {_id, user_id, deleted_at: None}` plus unbounded
`$graphLookup` over live documents, one `update_many` soft-deleting the block
and every collected descendant (`deleted_at = now`, `updated_at = now`), and
the `$pull` of the id from its former parent's `children`. -/
def deleteBlock (store : List Block) (uid : String) (bid : Nat) (now : Nat) :
    List Block × Except BlockErr Unit :=
  match findLiveOwned store uid bid with
  | none => (store, .error .notFound)
  | some _ =>
    match store.find? (fun b => b.id == bid && b.userId == uid && b.deletedAt.isNone) with
    | none => (store, .error .notFound)
    | some doc =>
      let descendants := graphLookupDescendants store doc.children store.length
      let allIds := bid :: descendants.map (·.id)
      let s1 := store.map (fun b =>
        if allIds.contains b.id then markDeleted now b else b)
      let s2 :=
        match doc.parentId with
        | some pid =>
          updateById s1 pid (pullChild bid now)
        | none => s1
      (s2, .ok ())

/-- `GET /blocks/{id}/children` (`get_children`): ownership dependency, then
the live children of the block sorted by `order`; the cursor is drained with
`to_list(length=500)` (at most 500 documents) while `total` counts every
match.  The route takes no `limit` or `offset` parameter. -/
def getChildren (store : List Block) (uid : String) (bid : Nat) :
    Except BlockErr BlockListResult :=
  match findLiveOwned store uid bid with
  | none => .error .notFound
  | some _ =>
    let q := fun b => userScopedQuery uid b && b.parentId == some bid
    let matching := store.filter q
    .ok { blocks := (sortByOrder matching).take 500, total := matching.length }

/-! ## Well-formedness and the structural invariant -/

/-- Document ids are pairwise distinct (the store mints a fresh `ObjectId` for
every insert). -/
def idsNodup (store : List Block) : Prop := (store.map (·.id)).Nodup

/-- Freshness of an id minted by `insert_one`: not the id of any stored
document, not referenced from any `children` list, and not referenced by any
`parent_id`. -/
def freshId (store : List Block) (newId : Nat) : Prop :=
  newId ∉ store.map (·.id) ∧ (∀ b ∈ store, newId ∉ b.children) ∧
    (∀ b ∈ store, b.parentId ≠ some newId)

/-- Bidirectional parent/children consistency: every live block with a parent
is listed in that parent's `children`, and every live block listed in some
block's `children` points back at it via `parentId`. -/
def parentChildConsistent (store : List Block) : Prop :=
  (∀ b ∈ store, b.deletedAt = none → ∀ p ∈ store, b.parentId = some p.id →
      b.id ∈ p.children) ∧
  (∀ p ∈ store, ∀ c ∈ store, c.deletedAt = none → c.id ∈ p.children →
      c.parentId = some p.id)

/-! ## Basic lemmas about the query predicates -/

theorem userScopedQuery_eq_true {uid : String} {b : Block} :
    userScopedQuery uid b = true ↔ b.userId = uid ∧ b.deletedAt = none := by
  simp [userScopedQuery, Option.isNone_iff_eq_none]

theorem liveOwnedP_eq_true {uid : String} {bid : Nat} {b : Block} :
    liveOwnedP uid bid b = true ↔ b.id = bid ∧ b.userId = uid ∧ b.deletedAt = none := by
  simp [liveOwnedP, userScopedQuery, Option.isNone_iff_eq_none, and_assoc]

theorem findLiveOwned_eq_none {store : List Block} {uid : String} {bid : Nat}
    (h : ∀ x ∈ store, x.id = bid → ¬(x.userId = uid ∧ x.deletedAt = none)) :
    findLiveOwned store uid bid = none := by
  refine List.find?_eq_none.mpr fun x hx hp => ?_
  rcases liveOwnedP_eq_true.mp hp with ⟨h1, h2, h3⟩
  exact h x hx h1 ⟨h2, h3⟩

theorem findLiveOwned_some {store : List Block} {uid : String} {bid : Nat} {b : Block}
    (h : findLiveOwned store uid bid = some b) :
    b ∈ store ∧ b.id = bid ∧ b.userId = uid ∧ b.deletedAt = none :=
  ⟨List.mem_of_find?_eq_some h, liveOwnedP_eq_true.mp (List.find?_some h)⟩

theorem findLiveOwned_isSome {store : List Block} {uid : String} {bid : Nat} {b : Block}
    (hb : b ∈ store) (hid : b.id = bid) (hu : b.userId = uid) (hl : b.deletedAt = none) :
    ∃ c, findLiveOwned store uid bid = some c ∧ c ∈ store ∧ c.id = bid ∧
      c.userId = uid ∧ c.deletedAt = none := by
  have : (store.find? (liveOwnedP uid bid)).isSome :=
    List.find?_isSome.mpr ⟨b, hb, liveOwnedP_eq_true.mpr ⟨hid, hu, hl⟩⟩
  rcases Option.isSome_iff_exists.mp this with ⟨c, hc⟩
  exact ⟨c, hc, findLiveOwned_some hc⟩

/-- Two stored documents sharing an id are the same document, when ids are
pairwise distinct. -/
theorem eq_of_mem_of_id_eq {store : List Block} {a b : Block} (hnd : idsNodup store)
    (ha : a ∈ store) (hb : b ∈ store) (h : a.id = b.id) : a = b :=
  List.inj_on_of_nodup_map hnd ha hb h

/-- With pairwise-distinct ids, the live/owned lookup of a live owned member
returns exactly that member. -/
theorem findLiveOwned_eq_some_self {store : List Block} {uid : String} {a : Block}
    (hnd : idsNodup store) (ha : a ∈ store) (hu : a.userId = uid)
    (hl : a.deletedAt = none) : findLiveOwned store uid a.id = some a := by
  rcases findLiveOwned_isSome ha rfl hu hl with ⟨c, hc, hcm, hcid, -, -⟩
  rw [hc, eq_of_mem_of_id_eq hnd hcm ha hcid]

/-! ## Lemmas about `updateById` and the sort -/

theorem mem_updateById {store : List Block} {bid : Nat} {f : Block → Block} {x : Block} :
    x ∈ updateById store bid f ↔ ∃ b ∈ store, x = if b.id = bid then f b else b := by
  simp only [updateById, List.mem_map, eq_comm]

theorem length_insertByOrder (b : Block) (l : List Block) :
    (insertByOrder b l).length = l.length + 1 := by
  induction l with
  | nil => rfl
  | cons c rest ih =>
    by_cases h : b.order ≤ c.order <;> simp [insertByOrder, h, ih]

theorem length_sortByOrder (l : List Block) : (sortByOrder l).length = l.length := by
  induction l with
  | nil => rfl
  | cons b rest ih => simp [sortByOrder, length_insertByOrder, ih]

theorem mem_insertByOrder {x b : Block} {l : List Block} :
    x ∈ insertByOrder b l ↔ x = b ∨ x ∈ l := by
  induction l with
  | nil => simp [insertByOrder]
  | cons c rest ih =>
    by_cases h : b.order ≤ c.order
    · simp [insertByOrder, h]
    · simp [insertByOrder, h, ih]; tauto

theorem mem_sortByOrder {x : Block} {l : List Block} : x ∈ sortByOrder l ↔ x ∈ l := by
  induction l with
  | nil => simp [sortByOrder]
  | cons b rest ih => simp [sortByOrder, mem_insertByOrder, ih]

/-! ## Soundness of the graph traversal -/

theorem mem_glNew {store : List Block} {frontier visited : List Nat} {x : Block} :
    x ∈ glNew store frontier visited ↔
      x ∈ store ∧ x.id ∈ frontier ∧ x.deletedAt = none ∧ x.id ∉ visited := by
  simp [glNew, List.mem_filter, Option.isNone_iff_eq_none, and_assoc]

/-- Everything the traversal collects beyond its accumulator is a live stored
document. -/
theorem mem_glAux_live {store : List Block} {x : Block} :
    ∀ {fuel : Nat} {frontier : List Nat} {acc : List Block},
      x ∈ glAux store fuel frontier acc →
      x ∈ acc ∨ (x ∈ store ∧ x.deletedAt = none) := by
  intro fuel
  induction fuel with
  | zero => intro frontier acc h; exact Or.inl h
  | succ n ih =>
    intro frontier acc h
    rcases ih h with h' | h'
    · rcases List.mem_append.mp h' with h'' | h''
      · exact Or.inl h''
      · rcases mem_glNew.mp h'' with ⟨hm, -, hl, -⟩
        exact Or.inr ⟨hm, hl⟩
    · exact Or.inr h'

/-! ## Concrete fixture store used by the closed instances -/

/-- Root block `A` (id 1) with child `B`. -/
def blkA : Block :=
  { id := 1, userId := "u", parentId := none, children := [2], order := 0, depth := 0,
    content := ⟨"A"⟩, blockType := "bullet", blockProps := none, uiState := defaultUIState,
    version := 1, createdAt := 0, updatedAt := 0, deletedAt := none }

/-- Child `B` (id 2) of `A`, with child `C`. -/
def blkB : Block := { blkA with id := 2, parentId := some 1, children := [3], depth := 1 }

/-- Grandchild `C` (id 3) of `A`. -/
def blkC : Block := { blkA with id := 3, parentId := some 2, children := [], depth := 2 }

/-- A soft-deleted root `D` (id 4). -/
def blkD : Block :=
  { blkA with id := 4, parentId := none, children := [], deletedAt := some 0 }

/-- A second live root `R` (id 5). -/
def blkR : Block := { blkA with id := 5, children := [], order := 1 }

/-- Fixture store: the chain `A -> B -> C`, the deleted `D`, and the root `R`. -/
def storeW : List Block := [blkA, blkB, blkC, blkD, blkR]

/-! ## C1: soft-deleted blocks are invisible to every read -/

/-- C1: a block whose `deletedAt` is set never appears in the `blocks` of any
`listBlocks` call (any parent filter), in the `blocks` of any successful
`getChildren` call, or among the `descendants` of any successful
`getBlockTree` call. -/
theorem claim1_deleted_blocks_invisible (store : List Block) (uid : String)
    (pf : ParentFilter) (limit offset bid maxDepth : Nat) (b : Block)
    (hdel : b.deletedAt ≠ none) :
    b ∉ (listBlocks store uid pf limit offset).blocks ∧
    (∀ res, getChildren store uid bid = .ok res → b ∉ res.blocks) ∧
    (∀ t, getBlockTree store uid bid maxDepth = .ok t → b ∉ t.descendants) := by
  refine ⟨?_, ?_, ?_⟩
  · intro hmem
    have h1 : b ∈ store.filter (listBlocksP uid pf) :=
      mem_sortByOrder.mp (List.mem_of_mem_drop (List.mem_of_mem_take hmem))
    have h2 := (List.mem_filter.mp h1).2
    have h3 : userScopedQuery uid b = true := (Bool.and_eq_true _ _|>.mp h2).1
    exact hdel (userScopedQuery_eq_true.mp h3).2
  · intro res hres hmem
    cases hfind : findLiveOwned store uid bid with
    | none => simp [getChildren, hfind] at hres
    | some c =>
      simp only [getChildren, hfind] at hres
      cases hres
      have h1 : b ∈ store.filter (fun x => userScopedQuery uid x && x.parentId == some bid) :=
        mem_sortByOrder.mp (List.mem_of_mem_take hmem)
      have h2 := (List.mem_filter.mp h1).2
      have h3 : userScopedQuery uid b = true := (Bool.and_eq_true _ _|>.mp h2).1
      exact hdel (userScopedQuery_eq_true.mp h3).2
  · intro t ht hmem
    cases hfind : findLiveOwned store uid bid with
    | none => simp [getBlockTree, hfind] at ht
    | some c =>
      cases hfind2 : store.find? (fun x => x.id == bid && x.userId == uid) with
      | none => simp [getBlockTree, hfind, hfind2] at ht
      | some doc =>
        simp only [getBlockTree, hfind, hfind2] at ht
        cases ht
        rcases mem_glAux_live hmem with h | h
        · simp at h
        · exact hdel h.2

/-- Closed instance of C1 on the fixture store: the soft-deleted `D` is
invisible to all three reads. -/
theorem claim1_witness :
    blkD ∉ (listBlocks storeW "u" .all 100 0).blocks ∧
    (∀ res, getChildren storeW "u" 1 = .ok res → blkD ∉ res.blocks) ∧
    (∀ t, getBlockTree storeW "u" 1 2 = .ok t → blkD ∉ t.descendants) :=
  claim1_deleted_blocks_invisible storeW "u" .all 100 0 1 2 blkD (by decide)

/-! ## C9: deleting an already-deleted (or missing, or foreign) block -/

/-- C9: when no live block with id `bid` owned by `uid` exists — in particular
when the block's `deletedAt` is already set — `deleteBlock` fails with
NotFound and returns the store unchanged.  Repeated deletion is therefore not
a no-op success. -/
theorem claim9_delete_deleted_not_found (store : List Block) (uid : String)
    (bid now : Nat)
    (h : ∀ x ∈ store, x.id = bid → ¬(x.userId = uid ∧ x.deletedAt = none)) :
    deleteBlock store uid bid now = (store, .error .notFound) := by
  unfold deleteBlock
  rw [findLiveOwned_eq_none h]

/-- Closed instance of C9: deleting the already soft-deleted `D` is a
NotFound that leaves the fixture store untouched. -/
theorem claim9_witness :
    deleteBlock storeW "u" 4 9 = (storeW, .error .notFound) :=
  claim9_delete_deleted_not_found storeW "u" 4 9 (by decide)

/-! ## C5: self-move rejection (corrected) -/

/-- C5 is false as stated: with an empty store (so the block does not exist),
the self-move fails with NotFound — raised by the ownership check before the
self-parenting check runs — not with InvalidOperation. -/
theorem claim5_counterexample :
    (moveBlock ([] : List Block) "u" 1 { newParentId := some 1, newOrder := 0 } 0).2
        = .error .notFound ∧
      BlockErr.notFound ≠ BlockErr.invalidOperation :=
  ⟨rfl, by decide⟩

/-- C5 (amended): a move whose `newParentId` equals the moved block's own id
always fails and leaves the store unchanged; the error is InvalidOperation
when the block exists, is live and is owned by the caller, and NotFound when
no such live owned block exists. -/
theorem claim5_self_move_rejected (store : List Block) (uid : String) (bid : Nat)
    (norder : Int) (now : Nat) :
    ((∃ b ∈ store, b.id = bid ∧ b.userId = uid ∧ b.deletedAt = none) →
      moveBlock store uid bid { newParentId := some bid, newOrder := norder } now
        = (store, .error .invalidOperation)) ∧
    ((∀ x ∈ store, x.id = bid → ¬(x.userId = uid ∧ x.deletedAt = none)) →
      moveBlock store uid bid { newParentId := some bid, newOrder := norder } now
        = (store, .error .notFound)) := by
  constructor
  · rintro ⟨b, hb, hid, hu, hl⟩
    rcases findLiveOwned_isSome hb hid hu hl with ⟨c, hc, -⟩
    unfold moveBlock
    rw [hc]
    simp
  · intro h
    unfold moveBlock
    rw [findLiveOwned_eq_none h]

/-- Closed instance of C5 (amended): self-move of the live root `A` is an
InvalidOperation, self-move of a missing id 99 is a NotFound; the fixture
store is unchanged either way. -/
theorem claim5_witness :
    moveBlock storeW "u" 1 { newParentId := some 1, newOrder := 5 } 9
        = (storeW, .error .invalidOperation) ∧
      moveBlock storeW "u" 99 { newParentId := some 99, newOrder := 5 } 9
        = (storeW, .error .notFound) :=
  ⟨(claim5_self_move_rejected storeW "u" 1 5 9).1 ⟨blkA, by decide, by decide, rfl, rfl⟩,
   (claim5_self_move_rejected storeW "u" 99 5 9).2 (by decide)⟩

/-! ## C10: `getChildren` caps the page at 500 but counts everything -/

/-- C10: for a live owned block, `getChildren` succeeds; its `blocks` list is
the order-sorted live children truncated to at most 500 entries (exactly 500
when more live children exist), while `total` is the full live-children count.
The operation takes no limit or offset argument (see `getChildren`). -/
theorem claim10_children_capped (store : List Block) (uid : String) (bid : Nat)
    (h : ∃ b ∈ store, b.id = bid ∧ b.userId = uid ∧ b.deletedAt = none) :
    ∃ res, getChildren store uid bid = .ok res ∧
      res.blocks.length
        = min 500 (store.filter (fun b => userScopedQuery uid b && b.parentId == some bid)).length ∧
      res.total
        = (store.filter (fun b => userScopedQuery uid b && b.parentId == some bid)).length := by
  rcases h with ⟨b, hb, hid, hu, hl⟩
  rcases findLiveOwned_isSome hb hid hu hl with ⟨c, hc, -⟩
  refine ⟨_, by rw [getChildren, hc], ?_, rfl⟩
  simp [List.length_take, length_sortByOrder]

/-- Closed instance of C10 on the fixture store. -/
theorem claim10_witness :
    ∃ res, getChildren storeW "u" 1 = .ok res ∧
      res.blocks.length
        = min 500 (storeW.filter (fun b => userScopedQuery "u" b && b.parentId == some 1)).length ∧
      res.total
        = (storeW.filter (fun b => userScopedQuery "u" b && b.parentId == some 1)).length :=
  claim10_children_capped storeW "u" 1 ⟨blkA, by decide, rfl, rfl, rfl⟩

/-! ## C6: automatic order assignment on create -/

/-- Specification-side maximum of a list of sibling orders. -/
def ordersMax : List Int → Option Int
  | [] => none
  | o :: rest =>
    some (match ordersMax rest with
          | none => o
          | some m => max o m)

/-- The order of the first document of the order-descending sort is the
maximum sibling order. -/
theorem maxOrderDoc_order (l : List Block) :
    (maxOrderDoc l).map (·.order) = ordersMax (l.map (·.order)) := by
  induction l with
  | nil => rfl
  | cons b rest ih =>
    cases hrec : maxOrderDoc rest with
    | none =>
      rw [hrec] at ih
      simp only [maxOrderDoc, hrec, ordersMax, List.map_cons, Option.map_some']
      rw [← ih]
      simp
    | some m =>
      rw [hrec] at ih
      simp only [maxOrderDoc, hrec, ordersMax, List.map_cons, Option.map_some']
      rw [← ih]
      by_cases h : m.order > b.order
      · simp [h, max_eq_right (le_of_lt h)]
      · simp [h, max_eq_left (le_of_not_lt h)]

/-- C6: when the request omits `order`, the created block's order is
`max(order of live siblings with the same parentId and ownerId) + 1`, and `0`
when no such sibling exists. -/
theorem claim6_auto_order (store : List Block) (uid : String) (data : BlockCreate)
    (newId now : Nat) (st' : List Block) (b : Block)
    (hord : data.order = none)
    (hsucc : createBlock store uid data newId now = (st', .ok b)) :
    b.order
      = (match ordersMax ((store.filter
            (fun x => userScopedQuery uid x && x.parentId == data.parentId)).map (·.order)) with
         | none => 0
         | some m => m + 1) := by
  have key : ∀ parentOid depth,
      createGo store uid data parentOid depth newId now = (st', .ok b) →
      b.order
        = (match ordersMax ((store.filter
              (fun x => userScopedQuery uid x && x.parentId == parentOid)).map (·.order)) with
           | none => 0
           | some m => m + 1) := by
    intro parentOid depth hgo
    have hmax := maxOrderDoc_order
      (store.filter (fun x => userScopedQuery uid x && x.parentId == parentOid))
    cases hdoc : maxOrderDoc (store.filter
        (fun x => userScopedQuery uid x && x.parentId == parentOid)) with
    | none =>
      rw [hdoc] at hmax
      rw [← hmax]
      simp only [createGo, hord, hdoc] at hgo
      have hb := congrArg Prod.snd hgo
      simp only at hb
      cases hb
      rfl
    | some m =>
      rw [hdoc] at hmax
      rw [← hmax]
      simp only [createGo, hord, hdoc] at hgo
      have hb := congrArg Prod.snd hgo
      simp only at hb
      cases hb
      rfl
  unfold createBlock at hsucc
  split at hsucc
  case h_1 pid hpid =>
    split at hsucc
    case h_1 => simp at hsucc
    case h_2 parent hparent =>
      rw [hpid]
      exact key (some pid) (parent.depth + 1) hsucc
  case h_2 hpid =>
    rw [hpid]
    exact key none 0 hsucc

/-- Three root siblings with orders 0, 1, 2 (the example of the claim). -/
def storeSib : List Block :=
  [{ blkA with id := 10, children := [], order := 0 },
   { blkA with id := 11, children := [], order := 1 },
   { blkA with id := 12, children := [], order := 2 }]

/-- A create request with `order` omitted. -/
def reqCreateNoOrder : BlockCreate :=
  { parentId := none, content := ⟨"x"⟩, blockType := "bullet", blockProps := none,
    uiState := none, order := none }

/-- Closed instance of C6: among three live siblings of orders `{0, 1, 2}`,
the created block receives order 3 (= max + 1). -/
theorem claim6_witness :
    (newBlockDoc "u" reqCreateNoOrder none 3 0 13 7).order
      = (match ordersMax ((storeSib.filter
            (fun x => userScopedQuery "u" x && x.parentId == reqCreateNoOrder.parentId)).map (·.order)) with
         | none => 0
         | some m => m + 1) :=
  claim6_auto_order storeSib "u" reqCreateNoOrder 13 7
    (storeSib ++ [newBlockDoc "u" reqCreateNoOrder none 3 0 13 7])
    (newBlockDoc "u" reqCreateNoOrder none 3 0 13 7) rfl (by decide)

/-! ## C7: partial update touches only the supplied fields -/

/-- Field-by-field description of the `$set`/`$inc` document of
`update_block`. -/
theorem applyUpdate_fields (data : BlockUpdate) (now : Nat) (b : Block) :
    (applyUpdate data now b).id = b.id ∧
    (applyUpdate data now b).userId = b.userId ∧
    (applyUpdate data now b).parentId = b.parentId ∧
    (applyUpdate data now b).children = b.children ∧
    (applyUpdate data now b).order = b.order ∧
    (applyUpdate data now b).depth = b.depth ∧
    (applyUpdate data now b).createdAt = b.createdAt ∧
    (applyUpdate data now b).deletedAt = b.deletedAt ∧
    (applyUpdate data now b).version = b.version + 1 ∧
    (applyUpdate data now b).updatedAt = now ∧
    (applyUpdate data now b).content = data.content.getD b.content ∧
    (applyUpdate data now b).blockType = data.blockType.getD b.blockType ∧
    (applyUpdate data now b).blockProps
      = (match data.blockProps with | some p => some p | none => b.blockProps) ∧
    (applyUpdate data now b).uiState = data.uiState.getD b.uiState := by
  unfold applyUpdate
  cases data.content <;> cases data.blockType <;> cases data.blockProps <;>
    cases data.uiState <;> simp

/-- `update_block` on a live owned block: the store update and the returned
document. -/
theorem updateBlock_ok {store : List Block} {uid : String} {bid : Nat}
    (data : BlockUpdate) (now : Nat) {b0 : Block} (hnd : idsNodup store)
    (hb : b0 ∈ store) (hid : b0.id = bid) (hu : b0.userId = uid)
    (hl : b0.deletedAt = none) :
    updateBlock store uid bid data now
      = (updateById store bid (applyUpdate data now), .ok (applyUpdate data now b0)) := by
  subst hid
  rw [updateBlock, findLiveOwned_eq_some_self hnd hb hu hl]

/-- `updateById` with an id-preserving rewrite keeps the id column. -/
theorem updateById_map_id {store : List Block} {bid : Nat} {f : Block → Block}
    (hpres : ∀ b, (f b).id = b.id) :
    (updateById store bid f).map (·.id) = store.map (·.id) := by
  unfold updateById
  rw [List.map_map]
  refine List.map_congr_left fun b _ => ?_
  by_cases h : b.id = bid <;> simp [h, hpres]

/-- C7: `updateBlock` on a live owned block changes only the supplied payload
fields, leaves `parentId`, `order`, `depth` and `children` untouched,
increments `version` by exactly 1 and stamps `updatedAt`; blocks with other
ids are untouched; and a second identical call increments `version` again (no
content-equality short-circuit), for `+2` in total. -/
theorem claim7_update_frame (store : List Block) (uid : String) (bid : Nat)
    (data : BlockUpdate) (now later : Nat) (b0 : Block) (hnd : idsNodup store)
    (hb : b0 ∈ store) (hid : b0.id = bid) (hu : b0.userId = uid)
    (hl : b0.deletedAt = none) :
    ∃ st' b', updateBlock store uid bid data now = (st', .ok b') ∧
      b'.parentId = b0.parentId ∧ b'.order = b0.order ∧ b'.depth = b0.depth ∧
      b'.children = b0.children ∧ b'.id = b0.id ∧ b'.userId = b0.userId ∧
      b'.createdAt = b0.createdAt ∧ b'.deletedAt = none ∧
      b'.version = b0.version + 1 ∧ b'.updatedAt = now ∧
      b'.content = data.content.getD b0.content ∧
      b'.blockType = data.blockType.getD b0.blockType ∧
      b'.blockProps = (match data.blockProps with | some p => some p | none => b0.blockProps) ∧
      b'.uiState = data.uiState.getD b0.uiState ∧
      (∀ x ∈ st', x.id ≠ bid → x ∈ store) ∧
      (∃ st'' b'', updateBlock st' uid bid data later = (st'', .ok b'') ∧
        b''.version = b0.version + 2) := by
  have h1 := updateBlock_ok data now hnd hb hid hu hl
  obtain ⟨hpid, hpuid, hppar, hpch, hpord, hpdep, hpcr, hpdel, hpver, hpupd,
    hpcon, hpty, hppr, hpui⟩ := applyUpdate_fields data now b0
  refine ⟨_, _, h1, hppar, hpord, hpdep, hpch, hpid, hpuid, hpcr,
    hpdel.trans hl, hpver, hpupd, hpcon, hpty, hppr, hpui, ?_, ?_⟩
  · intro x hx hxid
    rcases mem_updateById.mp hx with ⟨c, hc, hceq⟩
    by_cases h : c.id = bid
    · have : (applyUpdate data now c).id = c.id := (applyUpdate_fields data now c).1
      rw [if_pos h] at hceq
      subst hceq
      exact absurd (this.trans h) hxid
    · rw [if_neg h] at hceq
      subst hceq
      exact hc
  · set st' := updateById store bid (applyUpdate data now) with hst'
    have hnd' : idsNodup st' := by
      unfold idsNodup
      rw [hst', updateById_map_id fun c => (applyUpdate_fields data now c).1]
      exact hnd
    have hbmem : applyUpdate data now b0 ∈ st' := by
      rw [hst']
      refine mem_updateById.mpr ⟨b0, hb, ?_⟩
      rw [if_pos hid]
    have h2 := updateBlock_ok data later hnd' hbmem (hpid.trans hid)
      (hpuid.trans hu) (hpdel.trans hl)
    refine ⟨_, _, h2, ?_⟩
    have := (applyUpdate_fields data later (applyUpdate data now b0)).2.2.2.2.2.2.2.2.1
    rw [this, hpver]

/-- A content-only update request. -/
def reqUpdateContent : BlockUpdate :=
  { content := some ⟨"B2"⟩, blockType := none, blockProps := none, uiState := none }

/-- Closed instance of C7 on the fixture store: updating `B`. -/
theorem claim7_witness :
    ∃ st' b', updateBlock storeW "u" 2 reqUpdateContent 7 = (st', .ok b') ∧
      b'.parentId = blkB.parentId ∧ b'.order = blkB.order ∧ b'.depth = blkB.depth ∧
      b'.children = blkB.children ∧ b'.id = blkB.id ∧ b'.userId = blkB.userId ∧
      b'.createdAt = blkB.createdAt ∧ b'.deletedAt = none ∧
      b'.version = blkB.version + 1 ∧ b'.updatedAt = 7 ∧
      b'.content = reqUpdateContent.content.getD blkB.content ∧
      b'.blockType = reqUpdateContent.blockType.getD blkB.blockType ∧
      b'.blockProps
        = (match reqUpdateContent.blockProps with | some p => some p | none => blkB.blockProps) ∧
      b'.uiState = reqUpdateContent.uiState.getD blkB.uiState ∧
      (∀ x ∈ st', x.id ≠ 2 → x ∈ storeW) ∧
      (∃ st'' b'', updateBlock st' "u" 2 reqUpdateContent 8 = (st'', .ok b'') ∧
        b''.version = blkB.version + 2) :=
  claim7_update_frame storeW "u" 2 reqUpdateContent 7 8 blkB
    (by unfold idsNodup; decide) (by decide) rfl rfl rfl

/-! ## C4: move re-parents, re-orders, recomputes depth, bumps version -/

theorem find?_id_eq_some_self {store : List Block} {b : Block} {bid : Nat}
    (hnd : idsNodup store) (hb : b ∈ store) (hid : b.id = bid) :
    store.find? (fun x => x.id == bid) = some b := by
  have hsome : (store.find? (fun x => x.id == bid)).isSome :=
    List.find?_isSome.mpr ⟨b, hb, by simp [hid]⟩
  rcases Option.isSome_iff_exists.mp hsome with ⟨c, hc⟩
  have hcm := List.mem_of_find?_eq_some hc
  have hcid : c.id = bid := by simpa using List.find?_some hc
  rw [hc, eq_of_mem_of_id_eq hnd hcm hb (hcid.trans hid.symm)]

theorem find?_id_updateById {store : List Block} {k bid : Nat} {f : Block → Block}
    (hpres : ∀ b, (f b).id = b.id) :
    (updateById store k f).find? (fun x => x.id == bid)
      = (store.find? (fun x => x.id == bid)).map (fun b => if b.id = k then f b else b) := by
  unfold updateById
  rw [List.find?_map _ store]
  have hfun : ((fun x => x.id == bid) ∘ fun b => if b.id = k then f b else b)
      = fun b : Block => b.id == bid := by
    funext b
    by_cases h : b.id = k <;> simp [Function.comp, h, hpres]
  rw [hfun]

/-- Transport through an id- and children-preserving `updateById` layer. -/
theorem mem_updateById_children_id {s : List Block} {k : Nat} {f : Block → Block}
    {p : Block} (hp : p ∈ updateById s k f)
    (hf : ∀ b, (f b).children = b.children ∧ (f b).id = b.id) :
    ∃ q ∈ s, p.children = q.children ∧ p.id = q.id := by
  rcases mem_updateById.mp hp with ⟨q, hq, heq⟩
  refine ⟨q, hq, ?_⟩
  rw [heq]
  split
  · exact ⟨(hf q).1, (hf q).2⟩
  · exact ⟨rfl, rfl⟩

/-- A document that ends up carrying the push target's id went through the
`$push`, so it lists the pushed child. -/
theorem push_layer_mem {s : List Block} {np cid now : Nat} {q : Block}
    (hq : q ∈ updateById s np (pushChild cid now)) (hid : q.id = np) :
    cid ∈ q.children := by
  rcases mem_updateById.mp hq with ⟨q1, hq1, heq⟩
  by_cases h : q1.id = np
  · rw [if_pos h] at heq
    rw [heq]
    simp [pushChild]
  · rw [if_neg h] at heq
    rw [heq] at hid
    exact absurd hid h

/-- A document that ends up carrying the pull target's id went through the
`$pull`, so it no longer lists the pulled child. -/
theorem pull_layer_not_mem {s : List Block} {op cid now : Nat} {q : Block}
    (hq : q ∈ updateById s op (pullChild cid now)) (hid : q.id = op) :
    cid ∉ q.children := by
  rcases mem_updateById.mp hq with ⟨q1, hq1, heq⟩
  by_cases h : q1.id = op
  · rw [if_pos h] at heq
    rw [heq]
    simp [pullChild]
  · rw [if_neg h] at heq
    rw [heq] at hid
    exact absurd hid h

/-- A member whose id differs from the update key passed through the layer
untouched. -/
theorem mem_updateById_of_ne {s : List Block} {k : Nat} {f : Block → Block}
    {p : Block} (hp : p ∈ updateById s k f) (hid : ∀ b, (f b).id = b.id)
    (hne : p.id ≠ k) : p ∈ s := by
  rcases mem_updateById.mp hp with ⟨q, hq, heq⟩
  by_cases h : q.id = k
  · rw [if_pos h] at heq
    rw [heq] at hne
    exact absurd ((hid q).trans h) hne
  · rw [if_neg h] at heq
    rw [heq]
    exact hq

/-- `find?_id_updateById` specialised to the `$push` write. -/
theorem find?_push {s : List Block} {k cid now bid : Nat} :
    (updateById s k (pushChild cid now)).find? (fun x => x.id == bid)
      = (s.find? (fun x => x.id == bid)).map
          (fun b => if b.id = k then pushChild cid now b else b) :=
  find?_id_updateById fun _ => rfl

/-- `find?_id_updateById` specialised to the `$pull` write. -/
theorem find?_pull {s : List Block} {k cid now bid : Nat} :
    (updateById s k (pullChild cid now)).find? (fun x => x.id == bid)
      = (s.find? (fun x => x.id == bid)).map
          (fun b => if b.id = k then pullChild cid now b else b) :=
  find?_id_updateById fun _ => rfl

/-- `find?_id_updateById` specialised to the moved block's own write. -/
theorem find?_set {s : List Block} {k now bid : Nat} {npid : Option Nat} {norder : Int}
    {nd : Nat} :
    (updateById s k (setMoved npid norder nd now)).find? (fun x => x.id == bid)
      = (s.find? (fun x => x.id == bid)).map
          (fun b => if b.id = k then setMoved npid norder nd now b else b) :=
  find?_id_updateById fun _ => rfl

/-- C4: for a live owned block and a distinct live owned new parent, the move
succeeds and sets `parentId` to the new parent, `order` to the request's
`newOrder`, `depth` to the new parent's depth plus one, stamps `updatedAt`,
increments `version`; in the result store every document carrying the new
parent's id lists the moved id in `children` while the former parent (when
distinct from the new one) no longer does.  Without a requested parent, the
move succeeds the same way with `parentId = none` and `depth = 0` (so moving
a root under another root yields depth 1). -/
theorem claim4_move_semantics (store : List Block) (uid : String)
    (norder : Int) (now : Nat) (current np : Block) (hnd : idsNodup store)
    (hc : current ∈ store) (hcu : current.userId = uid) (hcl : current.deletedAt = none)
    (hp : np ∈ store) (hpu : np.userId = uid) (hpl : np.deletedAt = none)
    (hne : np.id ≠ current.id) :
    (∃ st' b', moveBlock store uid current.id
        { newParentId := some np.id, newOrder := norder } now = (st', .ok b') ∧
      b'.id = current.id ∧ b'.parentId = some np.id ∧ b'.order = norder ∧
      b'.depth = np.depth + 1 ∧ b'.version = current.version + 1 ∧ b'.updatedAt = now ∧
      (∀ p ∈ st', p.id = np.id → current.id ∈ p.children) ∧
      (∀ p ∈ st', current.parentId = some p.id → p.id ≠ np.id →
        current.id ∉ p.children)) ∧
    (∃ st' b', moveBlock store uid current.id
        { newParentId := none, newOrder := norder } now = (st', .ok b') ∧
      b'.id = current.id ∧ b'.parentId = none ∧ b'.order = norder ∧
      b'.depth = 0 ∧ b'.version = current.version + 1 ∧ b'.updatedAt = now ∧
      (∀ p ∈ st', current.parentId = some p.id → current.id ∉ p.children)) := by
  have hcur := findLiveOwned_eq_some_self hnd hc hcu hcl
  have hnp2 := findLiveOwned_eq_some_self hnd hp hpu hpl
  have h0 : store.find? (fun x => x.id == current.id) = some current :=
    find?_id_eq_some_self hnd hc rfl
  constructor
  · -- a new parent is requested
    have hmv : moveBlock store uid current.id
        { newParentId := some np.id, newOrder := norder } now
        = moveGo store current.id current.parentId (some np.id) (np.depth + 1) norder now := by
      simp only [moveBlock, hcur, if_neg hne, hnp2]
    cases hop : current.parentId with
    | none =>
      rw [hop] at hmv
      have h2 : (updateById store np.id (pushChild current.id now)).find?
          (fun x => x.id == current.id) = some current := by
        rw [find?_push, h0]
        simp only [Option.map_some']
        rw [if_neg fun h => hne h.symm]
      have h3 : (updateById (updateById store np.id (pushChild current.id now)) current.id
            (setMoved (some np.id) norder (np.depth + 1) now)).find?
          (fun x => x.id == current.id)
          = some (setMoved (some np.id) norder (np.depth + 1) now current) := by
        rw [find?_set, h2]
        simp [Option.map_some']
      have hgo : moveGo store current.id none (some np.id) (np.depth + 1) norder now
          = (updateById (updateById store np.id (pushChild current.id now)) current.id
               (setMoved (some np.id) norder (np.depth + 1) now),
             .ok (setMoved (some np.id) norder (np.depth + 1) now current)) := by
        simp only [moveGo, optPull, optPush]
        rw [h3]
      refine ⟨_, _, hmv.trans hgo, rfl, rfl, rfl, rfl, rfl, rfl, ?_, ?_⟩
      · intro p hp hpid2
        rcases mem_updateById_children_id hp (fun b => ⟨rfl, rfl⟩) with ⟨q2, hq2, hch, hid2⟩
        rw [hch]
        exact push_layer_mem hq2 ((hid2.symm).trans hpid2)
      · intro p hp habs
        exact absurd habs (by simp)
    | some opv =>
      rw [hop] at hmv
      have h1 : (updateById store opv (pullChild current.id now)).find?
          (fun x => x.id == current.id)
          = some (if current.id = opv then pullChild current.id now current else current) := by
        rw [find?_pull, h0]
        simp only [Option.map_some']
      have hq1id : (if current.id = opv then pullChild current.id now current
          else current).id = current.id := by
        split <;> rfl
      have hq1ver : (if current.id = opv then pullChild current.id now current
          else current).version = current.version := by
        split <;> rfl
      have h2 : (updateById (updateById store opv (pullChild current.id now)) np.id
            (pushChild current.id now)).find? (fun x => x.id == current.id)
          = some (if current.id = opv then pullChild current.id now current else current) := by
        rw [find?_push, h1]
        simp only [Option.map_some']
        rw [if_neg fun h => hne ((hq1id.symm.trans h).symm ▸ rfl)]
      have h3 : (updateById (updateById (updateById store opv (pullChild current.id now))
            np.id (pushChild current.id now)) current.id
            (setMoved (some np.id) norder (np.depth + 1) now)).find?
          (fun x => x.id == current.id)
          = some (setMoved (some np.id) norder (np.depth + 1) now
              (if current.id = opv then pullChild current.id now current else current)) := by
        rw [find?_set, h2]
        simp only [Option.map_some']
        rw [if_pos hq1id]
      have hgo : moveGo store current.id (some opv) (some np.id) (np.depth + 1) norder now
          = (updateById (updateById (updateById store opv (pullChild current.id now))
               np.id (pushChild current.id now)) current.id
               (setMoved (some np.id) norder (np.depth + 1) now),
             .ok (setMoved (some np.id) norder (np.depth + 1) now
               (if current.id = opv then pullChild current.id now current else current))) := by
        simp only [moveGo, optPull, optPush]
        rw [h3]
      refine ⟨_, _, hmv.trans hgo, hq1id, rfl, rfl, rfl, ?_, rfl, ?_, ?_⟩
      · show (if current.id = opv then pullChild current.id now current
            else current).version + 1 = current.version + 1
        rw [hq1ver]
      · intro p hp hpid2
        rcases mem_updateById_children_id hp (fun b => ⟨rfl, rfl⟩) with ⟨q2, hq2, hch, hid2⟩
        rw [hch]
        exact push_layer_mem hq2 ((hid2.symm).trans hpid2)
      · intro p hp hsome hpne
        have hopid : opv = p.id := by injection hsome
        rcases mem_updateById_children_id hp (fun b => ⟨rfl, rfl⟩) with ⟨q2, hq2, hch, hid2⟩
        have hq2ne : q2.id ≠ np.id := fun h => hpne ((hid2.trans h))
        have hq2s1 : q2 ∈ updateById store opv (pullChild current.id now) :=
          mem_updateById_of_ne hq2 (fun b => rfl) hq2ne
        rw [hch]
        exact pull_layer_not_mem hq2s1 (hid2.symm.trans hopid.symm)
  · -- move to root
    have hmv : moveBlock store uid current.id { newParentId := none, newOrder := norder } now
        = moveGo store current.id current.parentId none 0 norder now := by
      simp only [moveBlock, hcur]
    cases hop : current.parentId with
    | none =>
      rw [hop] at hmv
      have h3 : (updateById store current.id (setMoved none norder 0 now)).find?
          (fun x => x.id == current.id)
          = some (setMoved none norder 0 now current) := by
        rw [find?_set, h0]
        simp [Option.map_some']
      have hgo : moveGo store current.id none none 0 norder now
          = (updateById store current.id (setMoved none norder 0 now),
             .ok (setMoved none norder 0 now current)) := by
        simp only [moveGo, optPull, optPush]
        rw [h3]
      refine ⟨_, _, hmv.trans hgo, rfl, rfl, rfl, rfl, rfl, rfl, ?_⟩
      intro p hp habs
      exact absurd habs (by simp)
    | some opv =>
      rw [hop] at hmv
      have h1 : (updateById store opv (pullChild current.id now)).find?
          (fun x => x.id == current.id)
          = some (if current.id = opv then pullChild current.id now current else current) := by
        rw [find?_pull, h0]
        simp only [Option.map_some']
      have hq1id : (if current.id = opv then pullChild current.id now current
          else current).id = current.id := by
        split <;> rfl
      have hq1ver : (if current.id = opv then pullChild current.id now current
          else current).version = current.version := by
        split <;> rfl
      have h3 : (updateById (updateById store opv (pullChild current.id now)) current.id
            (setMoved none norder 0 now)).find? (fun x => x.id == current.id)
          = some (setMoved none norder 0 now
              (if current.id = opv then pullChild current.id now current else current)) := by
        rw [find?_set, h1]
        simp only [Option.map_some']
        rw [if_pos hq1id]
      have hgo : moveGo store current.id (some opv) none 0 norder now
          = (updateById (updateById store opv (pullChild current.id now)) current.id
               (setMoved none norder 0 now),
             .ok (setMoved none norder 0 now
               (if current.id = opv then pullChild current.id now current else current))) := by
        simp only [moveGo, optPull, optPush]
        rw [h3]
      refine ⟨_, _, hmv.trans hgo, hq1id, rfl, rfl, rfl, ?_, rfl, ?_⟩
      · show (if current.id = opv then pullChild current.id now current
            else current).version + 1 = current.version + 1
        rw [hq1ver]
      · intro p hp hsome
        have hopid : opv = p.id := by injection hsome
        rcases mem_updateById_children_id hp (fun b => ⟨rfl, rfl⟩) with ⟨q2, hq2, hch, hid2⟩
        rw [hch]
        exact pull_layer_not_mem hq2 (hid2.symm.trans hopid.symm)

/-- Closed instance of C4: moving the root `R` under the root `A` (depth
becomes `0 + 1 = 1`), and moving `R` to the root position. -/
theorem claim4_witness :
    (∃ st' b', moveBlock storeW "u" blkR.id
        { newParentId := some blkA.id, newOrder := 0 } 9 = (st', .ok b') ∧
      b'.id = blkR.id ∧ b'.parentId = some blkA.id ∧ b'.order = 0 ∧
      b'.depth = blkA.depth + 1 ∧ b'.version = blkR.version + 1 ∧ b'.updatedAt = 9 ∧
      (∀ p ∈ st', p.id = blkA.id → blkR.id ∈ p.children) ∧
      (∀ p ∈ st', blkR.parentId = some p.id → p.id ≠ blkA.id →
        blkR.id ∉ p.children)) ∧
    (∃ st' b', moveBlock storeW "u" blkR.id
        { newParentId := none, newOrder := 0 } 9 = (st', .ok b') ∧
      b'.id = blkR.id ∧ b'.parentId = none ∧ b'.order = 0 ∧
      b'.depth = 0 ∧ b'.version = blkR.version + 1 ∧ b'.updatedAt = 9 ∧
      (∀ p ∈ st', blkR.parentId = some p.id → blkR.id ∉ p.children)) :=
  claim4_move_semantics storeW "u" 0 9 blkR blkA (by unfold idsNodup; decide)
    (by decide) rfl rfl (by decide) rfl rfl (by decide)

/-! ## C8: depth-bounded subtree retrieval (corrected: off-by-one) -/

/-- Specification-side reachability: `x` is reachable from a frontier of ids
in at most `k` hops, following `children` edges through live stored blocks. -/
inductive ReachesWithin (store : List Block) (frontier : List Nat) : Block → Nat → Prop
  | base {x : Block} {k : Nat} : x ∈ store → x.deletedAt = none → x.id ∈ frontier →
      ReachesWithin store frontier x (k + 1)
  | step {b x : Block} {k : Nat} : ReachesWithin store frontier b k → x ∈ store →
      x.deletedAt = none → x.id ∈ b.children → ReachesWithin store frontier x (k + 1)

theorem reachesWithin_pos {store : List Block} {fr : List Nat} {x : Block} {k : Nat}
    (h : ReachesWithin store fr x k) : 0 < k := by
  cases h <;> omega

theorem reachesWithin_mem_live {store : List Block} {fr : List Nat} {x : Block} {k : Nat}
    (h : ReachesWithin store fr x k) : x ∈ store ∧ x.deletedAt = none := by
  cases h with
  | base hx hl _ => exact ⟨hx, hl⟩
  | step _ hx hl _ => exact ⟨hx, hl⟩

theorem reachesWithin_succ {store : List Block} {fr : List Nat} {x : Block} {k : Nat}
    (h : ReachesWithin store fr x k) : ReachesWithin store fr x (k + 1) := by
  induction h with
  | base hx hl hf => exact .base hx hl hf
  | step _ hx hl hch ih => exact .step ih hx hl hch

theorem reachesWithin_mono {store : List Block} {fr : List Nat} {x : Block} {k m : Nat}
    (hle : k ≤ m) (h : ReachesWithin store fr x k) : ReachesWithin store fr x m := by
  induction m with
  | zero => exact absurd (Nat.lt_of_lt_of_le (reachesWithin_pos h) hle) (by omega)
  | succ n ih =>
    by_cases hk : k ≤ n
    · exact reachesWithin_succ (ih hk)
    · have hkm : k = n + 1 := by omega
      exact hkm ▸ h

/-- Replacing the frontier by ids one hop further away costs one step. -/
theorem reachesWithin_frontier_step {store : List Block} {fr fr' : List Nat}
    (hfr : ∀ i ∈ fr', ∃ b, ReachesWithin store fr b 1 ∧ i ∈ b.children) :
    ∀ {x : Block} {k : Nat}, ReachesWithin store fr' x k →
      ReachesWithin store fr x (k + 1) := by
  intro x k h
  induction h with
  | base hx hl hf =>
    rcases hfr _ hf with ⟨b, hb, hch⟩
    exact .step (reachesWithin_mono (by omega) hb) hx hl hch
  | step _ hx hl hch ih => exact .step ih hx hl hch

/-- The traversal only ever appends to its accumulator. -/
theorem glAux_append {store : List Block} :
    ∀ {fuel : Nat} {fr : List Nat} {acc : List Block},
      ∃ r, glAux store fuel fr acc = acc ++ r := by
  intro fuel
  induction fuel with
  | zero => exact fun {fr acc} => ⟨[], (List.append_nil acc).symm⟩
  | succ n ih =>
    intro fr acc
    rcases @ih ((glNew store fr (acc.map (·.id))).flatMap (·.children))
      (acc ++ glNew store fr (acc.map (·.id))) with ⟨r, hr⟩
    exact ⟨glNew store fr (acc.map (·.id)) ++ r, by
      show glAux store n _ _ = _
      rw [hr, List.append_assoc]⟩

/-- Soundness of the traversal: everything collected beyond the accumulator is
reachable from the frontier in at most `fuel` hops. -/
theorem mem_glAux_reaches {store : List Block} {x : Block} :
    ∀ {fuel : Nat} {fr : List Nat} {acc : List Block},
      x ∈ glAux store fuel fr acc → x ∈ acc ∨ ReachesWithin store fr x fuel := by
  intro fuel
  induction fuel with
  | zero => exact fun h => Or.inl h
  | succ n ih =>
    intro fr acc h
    rcases ih h with h' | h'
    · rcases List.mem_append.mp h' with h'' | h''
      · exact Or.inl h''
      · rcases mem_glNew.mp h'' with ⟨hm, hf, hl, -⟩
        exact Or.inr (reachesWithin_mono (Nat.succ_le_succ (Nat.zero_le n))
          (ReachesWithin.base hm hl hf))
    · refine Or.inr (reachesWithin_frontier_step ?_ h')
      intro i hi
      rcases List.mem_flatMap.mp hi with ⟨b, hb, hib⟩
      rcases mem_glNew.mp hb with ⟨hm, hf, hl, -⟩
      exact ⟨b, .base hm hl hf, hib⟩

/-- Invariant carried by the traversal: collected documents are live members
of the store, and every live child of a collected document is either already
collected or sits in the current frontier. -/
def glInv (store : List Block) (fr : List Nat) (acc : List Block) : Prop :=
  (∀ b ∈ acc, b ∈ store ∧ b.deletedAt = none) ∧
  (∀ b ∈ acc, ∀ i ∈ b.children, ∀ c ∈ store, c.id = i → c.deletedAt = none →
      c.id ∈ acc.map (·.id) ∨ c.id ∈ fr)

theorem glInv_nil (store : List Block) (fr : List Nat) : glInv store fr [] :=
  ⟨fun b hb => absurd hb (List.not_mem_nil b),
   fun b hb => absurd hb (List.not_mem_nil b)⟩

theorem glInv_step {store : List Block} {fr : List Nat} {acc : List Block}
    (hinv : glInv store fr acc) :
    glInv store ((glNew store fr (acc.map (·.id))).flatMap (·.children))
      (acc ++ glNew store fr (acc.map (·.id))) := by
  constructor
  · intro b hb
    rcases List.mem_append.mp hb with h | h
    · exact hinv.1 b h
    · rcases mem_glNew.mp h with ⟨hm, -, hl, -⟩
      exact ⟨hm, hl⟩
  · intro b hb i hi c hc hcid hcl
    rcases List.mem_append.mp hb with hb' | hb'
    · rcases hinv.2 b hb' i hi c hc hcid hcl with h | h
      · exact Or.inl (by
          rcases List.mem_map.mp h with ⟨a, ha, hai⟩
          exact List.mem_map.mpr ⟨a, List.mem_append.mpr (Or.inl ha), hai⟩)
      · by_cases hacc : c.id ∈ acc.map (·.id)
        · exact Or.inl (by
            rcases List.mem_map.mp hacc with ⟨a, ha, hai⟩
            exact List.mem_map.mpr ⟨a, List.mem_append.mpr (Or.inl ha), hai⟩)
        · have hcnw : c ∈ glNew store fr (acc.map (·.id)) :=
            mem_glNew.mpr ⟨hc, h, hcl, hacc⟩
          exact Or.inl (List.mem_map.mpr ⟨c, List.mem_append.mpr (Or.inr hcnw), rfl⟩)
    · exact Or.inr (hcid ▸ List.mem_flatMap.mpr ⟨b, hb', hi⟩)

/-- One expansion step either collects a reachable block (by id) or brings it
strictly closer to the new frontier. -/
theorem reaches_step_transfer {store : List Block} {fr : List Nat} {acc : List Block}
    (hnd : idsNodup store) (hinv : glInv store fr acc) :
    ∀ {x : Block} {k : Nat}, ReachesWithin store fr x k →
      x.id ∈ (acc ++ glNew store fr (acc.map (·.id))).map (·.id) ∨
      ∃ k' < k, ReachesWithin store
        ((glNew store fr (acc.map (·.id))).flatMap (·.children)) x k' := by
  intro x k h
  induction h with
  | @base y m hy hl hf =>
    by_cases hacc : y.id ∈ acc.map (·.id)
    · refine Or.inl ?_
      rcases List.mem_map.mp hacc with ⟨a, ha, hai⟩
      exact List.mem_map.mpr ⟨a, List.mem_append.mpr (Or.inl ha), hai⟩
    · have hynw : y ∈ glNew store fr (acc.map (·.id)) :=
        mem_glNew.mpr ⟨hy, hf, hl, hacc⟩
      exact Or.inl (List.mem_map.mpr ⟨y, List.mem_append.mpr (Or.inr hynw), rfl⟩)
  | @step b y m hb hy hl hch ih =>
    rcases ih with hid | ⟨k', hk', hr⟩
    · rcases List.mem_map.mp hid with ⟨b₂, hb₂, hbid⟩
      have hb₂mem : b₂ ∈ store := by
        rcases List.mem_append.mp hb₂ with h' | h'
        · exact (hinv.1 b₂ h').1
        · exact (mem_glNew.mp h').1
      have hbeq : b₂ = b := eq_of_mem_of_id_eq hnd hb₂mem (reachesWithin_mem_live hb).1 hbid
      rw [hbeq] at hb₂
      rcases List.mem_append.mp hb₂ with hbacc | hbnw
      · rcases hinv.2 b hbacc y.id hch y hy rfl hl with hyid | hyfr
        · refine Or.inl ?_
          rcases List.mem_map.mp hyid with ⟨a, ha, hai⟩
          exact List.mem_map.mpr ⟨a, List.mem_append.mpr (Or.inl ha), hai⟩
        · by_cases hacc : y.id ∈ acc.map (·.id)
          · refine Or.inl ?_
            rcases List.mem_map.mp hacc with ⟨a, ha, hai⟩
            exact List.mem_map.mpr ⟨a, List.mem_append.mpr (Or.inl ha), hai⟩
          · have hynw : y ∈ glNew store fr (acc.map (·.id)) :=
              mem_glNew.mpr ⟨hy, hyfr, hl, hacc⟩
            exact Or.inl (List.mem_map.mpr ⟨y, List.mem_append.mpr (Or.inr hynw), rfl⟩)
      · refine Or.inr ⟨1, ?_, .base hy hl (List.mem_flatMap.mpr ⟨b, hbnw, hch⟩)⟩
        have := reachesWithin_pos hb
        omega
    · exact Or.inr ⟨k' + 1, by omega, .step hr hy hl hch⟩

/-- Completeness of the traversal: with ids pairwise distinct, every block
reachable in at most `fuel` hops is collected (by id). -/
theorem reaches_mem_glAux {store : List Block} (hnd : idsNodup store) :
    ∀ {fuel : Nat} {fr : List Nat} {acc : List Block}, glInv store fr acc →
      ∀ {x : Block} {k : Nat}, ReachesWithin store fr x k → k ≤ fuel →
      x.id ∈ (glAux store fuel fr acc).map (·.id) := by
  intro fuel
  induction fuel with
  | zero =>
    intro fr acc hinv x k h hk
    exact absurd (reachesWithin_pos h) (by omega)
  | succ n ih =>
    intro fr acc hinv x k h hk
    rcases reaches_step_transfer hnd hinv h with hid | ⟨k', hk', hr⟩
    · show x.id ∈ (glAux store n ((glNew store fr (acc.map (·.id))).flatMap (·.children))
          (acc ++ glNew store fr (acc.map (·.id)))).map (·.id)
      rcases @glAux_append store n ((glNew store fr (acc.map (·.id))).flatMap (·.children))
          (acc ++ glNew store fr (acc.map (·.id))) with ⟨r, hr2⟩
      rw [hr2, List.map_append]
      exact List.mem_append.mpr (Or.inl hid)
    · exact ih (glInv_step hinv) hr (by omega)

theorem find?_id_user_eq_some_self {store : List Block} {uid : String} {root : Block}
    (hnd : idsNodup store) (hb : root ∈ store) (hu : root.userId = uid) :
    store.find? (fun b => b.id == root.id && b.userId == uid) = some root := by
  have hsome : (store.find? (fun b => b.id == root.id && b.userId == uid)).isSome :=
    List.find?_isSome.mpr ⟨root, hb, by simp [hu]⟩
  rcases Option.isSome_iff_exists.mp hsome with ⟨c, hc⟩
  have hcm := List.mem_of_find?_eq_some hc
  have hcid : c.id = root.id := by
    have := List.find?_some hc
    simp only [Bool.and_eq_true, beq_iff_eq] at this
    exact this.1
  rw [hc, eq_of_mem_of_id_eq hnd hcm hb hcid]

/-- C8 is false as stated: on the chain `A -> B -> C`, `getBlockTree(A)` with
`maxDepth = 1` returns the grandchild `C` among the descendants although `C`
is 2 hops away (the store's graph traversal counts recursion depth from 0 at
the seeded children, so `maxDepth = d` reaches `d + 1` hops). -/
theorem claim8_counterexample :
    (∃ t, getBlockTree storeW "u" 1 1 = .ok t ∧ blkC ∈ t.descendants) ∧
    ¬ ReachesWithin storeW blkA.children blkC 1 := by
  constructor
  · exact ⟨_, rfl, by decide⟩
  · intro h
    cases h with
    | base hx hl hf => exact absurd hf (by decide)
    | step hb hx hl hch => exact absurd (reachesWithin_pos hb) (by omega)

/-- C8 (amended): for a live owned block, `getBlockTree` succeeds and its
descendant list holds exactly the live blocks reachable from the block's
`children` within `maxDepth + 1` hops (not `maxDepth`): the traversal's
recursion depth starts at 0 on the seeded children, and anything further than
`maxDepth + 1` hops is silently excluded rather than an error. -/
theorem claim8_tree_reachability (store : List Block) (uid : String) (maxDepth : Nat)
    (root : Block) (hnd : idsNodup store) (hb : root ∈ store)
    (hu : root.userId = uid) (hl : root.deletedAt = none) :
    ∃ t, getBlockTree store uid root.id maxDepth = .ok t ∧ t.block = root ∧
      ∀ x, x ∈ t.descendants ↔ ReachesWithin store root.children x (maxDepth + 1) := by
  have h1 := findLiveOwned_eq_some_self hnd hb hu hl
  have h2 := find?_id_user_eq_some_self hnd hb hu
  refine ⟨⟨root, graphLookupDescendants store root.children (maxDepth + 1)⟩, ?_, rfl, ?_⟩
  · simp only [getBlockTree, h1, h2]
  · intro x
    constructor
    · intro hx
      rcases mem_glAux_reaches hx with h | h
      · exact absurd h (List.not_mem_nil x)
      · exact h
    · intro hr
      have hid := reaches_mem_glAux hnd (glInv_nil store root.children) hr (le_refl _)
      rcases List.mem_map.mp hid with ⟨y, hy, hyid⟩
      have hy2 : y ∈ store := by
        rcases mem_glAux_live hy with h | h
        · exact absurd h (List.not_mem_nil y)
        · exact h.1
      have heq := eq_of_mem_of_id_eq hnd hy2 (reachesWithin_mem_live hr).1 hyid
      exact heq ▸ hy

/-- Closed instance of C8 (amended) on the fixture store, seeded at `A` with
`maxDepth = 1`. -/
theorem claim8_witness :
    ∃ t, getBlockTree storeW "u" blkA.id 1 = .ok t ∧ t.block = blkA ∧
      ∀ x, x ∈ t.descendants ↔ ReachesWithin storeW blkA.children x 2 :=
  claim8_tree_reachability storeW "u" 1 blkA (by unfold idsNodup; decide)
    (by decide) rfl rfl

/-! ## C3: cascading soft delete over a chain of live descendants -/

/-- A chain of live descendants hanging off `root`: each element is a live
stored block whose id is listed in the previous element's `children`. -/
def IsLiveChain (store : List Block) : Block → List Block → Prop
  | _, [] => True
  | root, c :: rest =>
    c ∈ store ∧ c.deletedAt = none ∧ c.id ∈ root.children ∧ IsLiveChain store c rest

instance isLiveChainDecidable (store : List Block) :
    (root : Block) → (ch : List Block) → Decidable (IsLiveChain store root ch)
  | _, [] => .isTrue trivial
  | root, c :: rest =>
    have : Decidable (IsLiveChain store c rest) := isLiveChainDecidable store c rest
    decidable_of_iff
      (c ∈ store ∧ c.deletedAt = none ∧ c.id ∈ root.children ∧ IsLiveChain store c rest)
      Iff.rfl

theorem isLiveChain_subset {store : List Block} :
    ∀ {root : Block} {ch : List Block}, IsLiveChain store root ch → ∀ c ∈ ch, c ∈ store := by
  intro root ch
  induction ch generalizing root with
  | nil => intro _ c hc; exact absurd hc (List.not_mem_nil c)
  | cons d rest ih =>
    intro hchain c hc
    obtain ⟨hdm, -, -, hrest⟩ := hchain
    rcases List.mem_cons.mp hc with rfl | hc'
    · exact hdm
    · exact ih hrest c hc'

/-- Extending a reachability fact along a live chain. -/
theorem chain_reaches_from {store : List Block} {fr : List Nat} :
    ∀ {ch : List Block} {b : Block} {k0 : Nat}, ReachesWithin store fr b k0 →
      IsLiveChain store b ch → ∀ c ∈ ch,
      ∃ j, 1 ≤ j ∧ j ≤ ch.length ∧ ReachesWithin store fr c (k0 + j) := by
  intro ch
  induction ch with
  | nil => intro b k0 _ _ c hc; exact absurd hc (List.not_mem_nil c)
  | cons d rest ih =>
    intro b k0 hreach hchain c hc
    obtain ⟨hdm, hdl, hdc, hrest⟩ := hchain
    have hd : ReachesWithin store fr d (k0 + 1) := .step hreach hdm hdl hdc
    rcases List.mem_cons.mp hc with rfl | hc'
    · exact ⟨1, le_refl 1, by simp, hd⟩
    · rcases ih hd hrest c hc' with ⟨j, hj1, hjle, hr⟩
      exact ⟨j + 1, by omega, by simp only [List.length_cons]; omega,
        (by omega : k0 + 1 + j = k0 + (j + 1)) ▸ hr⟩

/-- Every element of a live chain off `root` is reachable from `root`'s
`children` within the chain length. -/
theorem chain_reaches {store : List Block} {root : Block} {ch : List Block}
    (hchain : IsLiveChain store root ch) :
    ∀ c ∈ ch, ∃ k, k ≤ ch.length ∧ ReachesWithin store root.children c k := by
  cases ch with
  | nil => intro c hc; exact absurd hc (List.not_mem_nil c)
  | cons d rest =>
    obtain ⟨hdm, hdl, hdc, hrest⟩ := hchain
    have hd : ReachesWithin store root.children d 1 := .base hdm hdl hdc
    intro c hc
    rcases List.mem_cons.mp hc with rfl | hc'
    · exact ⟨1, by simp, hd⟩
    · rcases chain_reaches_from hd hrest c hc' with ⟨j, hj1, hjle, hr⟩
      exact ⟨1 + j, by simp only [List.length_cons]; omega, hr⟩

/-- A chain without repeated ids cannot be longer than the store. -/
theorem chain_length_le {store : List Block} {ch : List Block}
    (hsub : ∀ c ∈ ch, c ∈ store) (hchnd : (ch.map (·.id)).Nodup) :
    ch.length ≤ store.length := by
  have hsub2 : ch.map (·.id) ⊆ store.map (·.id) := by
    intro i hi
    rcases List.mem_map.mp hi with ⟨c, hc, hci⟩
    exact List.mem_map.mpr ⟨c, hsub c hc, hci⟩
  have := (hchnd.subperm hsub2).length_le
  simpa using this

theorem contains_of_mem {l : List Nat} {i : Nat} (h : i ∈ l) : l.contains i = true := by
  simpa using h

/-- Documents whose id is in the batch are marked by the `update_many`. -/
theorem mark_map_marked {store : List Block} {ids : List Nat} {now : Nat} :
    ∀ x ∈ store.map (fun b => if ids.contains b.id then markDeleted now b else b),
      ids.contains x.id = true → x.deletedAt = some now ∧ x.updatedAt = now := by
  intro x hx hc
  rcases List.mem_map.mp hx with ⟨q, hq, heq⟩
  by_cases h : ids.contains q.id = true
  · rw [if_pos h] at heq
    rw [← heq]
    exact ⟨rfl, rfl⟩
  · rw [if_neg h] at heq
    rw [← heq] at hc
    exact absurd hc h

/-- The parent `$pull` neither unmarks a document nor resets its timestamp. -/
theorem pull_preserves_marked {s : List Block} {pid cid now : Nat} {ids : List Nat}
    (hs : ∀ x ∈ s, ids.contains x.id = true → x.deletedAt = some now ∧ x.updatedAt = now) :
    ∀ x ∈ updateById s pid (pullChild cid now), ids.contains x.id = true →
      x.deletedAt = some now ∧ x.updatedAt = now := by
  intro x hx hc
  rcases mem_updateById.mp hx with ⟨q, hq, heq⟩
  by_cases h : q.id = pid
  · rw [if_pos h] at heq
    rw [heq] at hc
    rw [heq]
    exact ⟨(hs q hq hc).1, rfl⟩
  · rw [if_neg h] at heq
    rw [heq] at hc
    rw [heq]
    exact hs q hq hc

/-- C3: deleting a live owned block `a` that has a chain of live descendants
(e.g. `A -> B -> C`) succeeds with one call; the one `update_many` batch sets
`deletedAt = now` and refreshes `updatedAt` on `a` and on every chain element;
`a`'s id is pulled from its former parent's `children`; and afterwards
`getBlock` on `a` or any chain element, and `getBlockTree(a)` for any
`maxDepth`, fail with NotFound. -/
theorem claim3_delete_cascade (store : List Block) (uid : String) (now : Nat)
    (a : Block) (ch : List Block) (hnd : idsNodup store) (ha : a ∈ store)
    (hu : a.userId = uid) (hl : a.deletedAt = none)
    (hchain : IsLiveChain store a ch) (hchnd : (ch.map (·.id)).Nodup) :
    ∃ st', deleteBlock store uid a.id now = (st', .ok ()) ∧
      (∀ x ∈ st', (x.id = a.id ∨ x.id ∈ ch.map (·.id)) →
        x.deletedAt = some now ∧ x.updatedAt = now) ∧
      (∀ p ∈ st', a.parentId = some p.id → a.id ∉ p.children) ∧
      getBlock st' uid a.id = .error .notFound ∧
      (∀ c ∈ ch, getBlock st' uid c.id = .error .notFound) ∧
      (∀ d, getBlockTree st' uid a.id d = .error .notFound) := by
  have h1 : findLiveOwned store uid a.id = some a := findLiveOwned_eq_some_self hnd ha hu hl
  have h2 : store.find? (fun b => b.id == a.id && b.userId == uid && b.deletedAt.isNone)
      = some a := by
    have hsome : (store.find?
        (fun b => b.id == a.id && b.userId == uid && b.deletedAt.isNone)).isSome :=
      List.find?_isSome.mpr ⟨a, ha, by simp [hu, hl]⟩
    rcases Option.isSome_iff_exists.mp hsome with ⟨c, hc⟩
    have hcm := List.mem_of_find?_eq_some hc
    have hcid : c.id = a.id := by
      have := List.find?_some hc
      simp only [Bool.and_eq_true, beq_iff_eq] at this
      exact this.1.1
    rw [hc, eq_of_mem_of_id_eq hnd hcm ha hcid]
  have hcontains : ∀ i, (i = a.id ∨ i ∈ ch.map (·.id)) →
      (a.id :: (graphLookupDescendants store a.children store.length).map (·.id)).contains i
        = true := by
    intro i hi
    apply contains_of_mem
    rcases hi with rfl | hi'
    · exact List.mem_cons_self _ _
    · rcases List.mem_map.mp hi' with ⟨c, hc, hci⟩
      rcases chain_reaches hchain c hc with ⟨k, hk, hr⟩
      have hkle : k ≤ store.length :=
        hk.trans (chain_length_le (isLiveChain_subset hchain) hchnd)
      have hmem := reaches_mem_glAux hnd (glInv_nil store a.children) hr hkle
      exact List.mem_cons.mpr (Or.inr (hci ▸ hmem))
  cases hpar : a.parentId with
  | none =>
    have hdel : deleteBlock store uid a.id now
        = (store.map (fun b =>
            if (a.id :: (graphLookupDescendants store a.children store.length).map
                (·.id)).contains b.id
            then markDeleted now b else b), .ok ()) := by
      simp only [deleteBlock, h1, h2, hpar]
    have hmarked : ∀ x ∈ (deleteBlock store uid a.id now).1,
        (x.id = a.id ∨ x.id ∈ ch.map (·.id)) →
        x.deletedAt = some now ∧ x.updatedAt = now := by
      rw [hdel]
      intro x hx h
      exact mark_map_marked x hx (hcontains x.id h)
    have hgone : ∀ i, (i = a.id ∨ i ∈ ch.map (·.id)) →
        findLiveOwned (deleteBlock store uid a.id now).1 uid i = none := by
      intro i hi
      apply List.find?_eq_none.mpr
      intro x hx hpred
      rcases liveOwnedP_eq_true.mp hpred with ⟨hxid, hxu, hxl⟩
      have hi' : x.id = a.id ∨ x.id ∈ ch.map (·.id) := by rw [hxid]; exact hi
      have := hmarked x hx hi'
      exact Option.noConfusion (this.1.symm.trans hxl)
    refine ⟨(deleteBlock store uid a.id now).1, ?_, hmarked, ?_, ?_, ?_, ?_⟩
    · rw [hdel]
    · intro p hp habs
      exact absurd habs (by simp)
    · simp only [getBlock, hgone a.id (Or.inl rfl)]
    · intro c hc
      simp only [getBlock, hgone c.id (Or.inr (List.mem_map.mpr ⟨c, hc, rfl⟩))]
    · intro d
      simp only [getBlockTree, hgone a.id (Or.inl rfl)]
  | some pid =>
    have hdel : deleteBlock store uid a.id now
        = (updateById (store.map (fun b =>
            if (a.id :: (graphLookupDescendants store a.children store.length).map
                (·.id)).contains b.id
            then markDeleted now b else b)) pid (pullChild a.id now), .ok ()) := by
      simp only [deleteBlock, h1, h2, hpar]
    have hmarked : ∀ x ∈ (deleteBlock store uid a.id now).1,
        (x.id = a.id ∨ x.id ∈ ch.map (·.id)) →
        x.deletedAt = some now ∧ x.updatedAt = now := by
      rw [hdel]
      intro x hx h
      exact pull_preserves_marked mark_map_marked x hx (hcontains x.id h)
    have hgone : ∀ i, (i = a.id ∨ i ∈ ch.map (·.id)) →
        findLiveOwned (deleteBlock store uid a.id now).1 uid i = none := by
      intro i hi
      apply List.find?_eq_none.mpr
      intro x hx hpred
      rcases liveOwnedP_eq_true.mp hpred with ⟨hxid, hxu, hxl⟩
      have hi' : x.id = a.id ∨ x.id ∈ ch.map (·.id) := by rw [hxid]; exact hi
      have := hmarked x hx hi'
      exact Option.noConfusion (this.1.symm.trans hxl)
    refine ⟨(deleteBlock store uid a.id now).1, ?_, hmarked, ?_, ?_, ?_, ?_⟩
    · rw [hdel]
    · intro p hp hpid
      have hpid2 : p.id = pid := by
        injection hpid with h
        exact h.symm
      rw [hdel] at hp
      exact pull_layer_not_mem hp hpid2
    · simp only [getBlock, hgone a.id (Or.inl rfl)]
    · intro c hc
      simp only [getBlock, hgone c.id (Or.inr (List.mem_map.mpr ⟨c, hc, rfl⟩))]
    · intro d
      simp only [getBlockTree, hgone a.id (Or.inl rfl)]

/-- Closed instance of C3 on the fixture store: deleting `A` cascades over
the chain `A -> B -> C`. -/
theorem claim3_witness :
    ∃ st', deleteBlock storeW "u" blkA.id 9 = (st', .ok ()) ∧
      (∀ x ∈ st', (x.id = blkA.id ∨ x.id ∈ [blkB, blkC].map (·.id)) →
        x.deletedAt = some 9 ∧ x.updatedAt = 9) ∧
      (∀ p ∈ st', blkA.parentId = some p.id → blkA.id ∉ p.children) ∧
      getBlock st' "u" blkA.id = .error .notFound ∧
      (∀ c ∈ [blkB, blkC], getBlock st' "u" c.id = .error .notFound) ∧
      (∀ d, getBlockTree st' "u" blkA.id d = .error .notFound) :=
  claim3_delete_cascade storeW "u" 9 blkA [blkB, blkC] (by unfold idsNodup; decide)
    (by decide) rfl rfl (by unfold IsLiveChain; decide) (by decide)

/-! ## C2: bidirectional parent/children consistency is preserved -/

theorem mem_optPull_elim {store : List Block} {oldP : Option Nat} {bid now : Nat}
    {x : Block} (hx : x ∈ optPull store oldP bid now) :
    ∃ q ∈ store, x.id = q.id ∧ x.deletedAt = q.deletedAt ∧ x.parentId = q.parentId ∧
      (∀ i ∈ x.children, i ∈ q.children) ∧
      (∀ i ∈ q.children, i ≠ bid → i ∈ x.children) ∧
      (oldP = some q.id → bid ∉ x.children) := by
  cases oldP with
  | none =>
    exact ⟨x, hx, rfl, rfl, rfl, fun i hi => hi, fun i hi _ => hi,
      fun h => Option.noConfusion h⟩
  | some op =>
    rcases mem_updateById.mp hx with ⟨q, hq, heq⟩
    by_cases h : q.id = op
    · rw [if_pos h] at heq
      subst heq
      refine ⟨q, hq, rfl, rfl, rfl, ?_, ?_, ?_⟩
      · intro i hi
        exact List.mem_of_mem_filter hi
      · intro i hi hne
        refine List.mem_filter.mpr ⟨hi, ?_⟩
        simpa using hne
      · intro _
        simp [pullChild]
    · rw [if_neg h] at heq
      subst heq
      refine ⟨x, hq, rfl, rfl, rfl, fun i hi => hi, fun i hi _ => hi, ?_⟩
      intro hsome
      refine absurd ?_ h
      injection hsome with h2
      exact h2.symm

theorem mem_optPush_elim {store : List Block} {newP : Option Nat} {bid now : Nat}
    {x : Block} (hx : x ∈ optPush store newP bid now) :
    ∃ q ∈ store, x.id = q.id ∧ x.deletedAt = q.deletedAt ∧ x.parentId = q.parentId ∧
      (∀ i ∈ x.children, i ∈ q.children ∨ (i = bid ∧ newP = some q.id)) ∧
      (∀ i ∈ q.children, i ∈ x.children) ∧
      (newP = some q.id → bid ∈ x.children) := by
  cases newP with
  | none =>
    exact ⟨x, hx, rfl, rfl, rfl, fun i hi => Or.inl hi, fun i hi => hi,
      fun h => Option.noConfusion h⟩
  | some np =>
    rcases mem_updateById.mp hx with ⟨q, hq, heq⟩
    by_cases h : q.id = np
    · rw [if_pos h] at heq
      subst heq
      refine ⟨q, hq, rfl, rfl, rfl, ?_, ?_, ?_⟩
      · intro i hi
        rcases List.mem_append.mp hi with h1 | h1
        · exact Or.inl h1
        · exact Or.inr ⟨by simpa using h1, by rw [h]⟩
      · intro i hi
        exact List.mem_append.mpr (Or.inl hi)
      · intro _
        exact List.mem_append.mpr (Or.inr (by simp))
    · rw [if_neg h] at heq
      subst heq
      refine ⟨x, hq, rfl, rfl, rfl, fun i hi => Or.inl hi, fun i hi => hi, ?_⟩
      intro hsome
      refine absurd ?_ h
      injection hsome with h2
      exact h2.symm

theorem mem_setMoved_elim {s : List Block} {bid : Nat} {newP : Option Nat}
    {norder : Int} {nd now : Nat} {x : Block}
    (hx : x ∈ updateById s bid (setMoved newP norder nd now)) :
    ∃ q ∈ s, x.id = q.id ∧ x.deletedAt = q.deletedAt ∧ x.children = q.children ∧
      (q.id = bid → x.parentId = newP) ∧ (q.id ≠ bid → x.parentId = q.parentId) := by
  rcases mem_updateById.mp hx with ⟨q, hq, heq⟩
  by_cases h : q.id = bid
  · rw [if_pos h] at heq
    subst heq
    exact ⟨q, hq, rfl, rfl, rfl, fun _ => rfl, fun hne => absurd h hne⟩
  · rw [if_neg h] at heq
    subst heq
    exact ⟨x, hq, rfl, rfl, rfl, fun h2 => absurd h2 h, fun _ => rfl⟩

/-- Every document of the post-move store against its pre-move original. -/
theorem moveGo_store_rel {store : List Block} {bid : Nat} {oldP newP : Option Nat}
    {norder : Int} {nd now : Nat} {x : Block}
    (hx : x ∈ updateById (optPush (optPull store oldP bid now) newP bid now) bid
      (setMoved newP norder nd now)) :
    ∃ q ∈ store, x.id = q.id ∧ x.deletedAt = q.deletedAt ∧
      (q.id = bid → x.parentId = newP) ∧ (q.id ≠ bid → x.parentId = q.parentId) ∧
      (∀ i ∈ x.children, i ∈ q.children ∨ (i = bid ∧ newP = some q.id)) ∧
      (∀ i ∈ q.children, i ≠ bid → i ∈ x.children) ∧
      (newP = some q.id → bid ∈ x.children) ∧
      (oldP = some q.id → newP ≠ some q.id → bid ∉ x.children) := by
  rcases mem_setMoved_elim hx with ⟨q2, hq2, hid2, hdel2, hch2, hp2a, hp2b⟩
  rcases mem_optPush_elim hq2 with ⟨q1, hq1, hid1, hdel1, hpar1, hc1a, hc1b, hc1c⟩
  rcases mem_optPull_elim hq1 with ⟨q0, hq0, hid0, hdel0, hpar0, hc0a, hc0b, hc0c⟩
  have hid20 : q2.id = q0.id := hid1.trans hid0
  refine ⟨q0, hq0, hid2.trans hid20, hdel2.trans (hdel1.trans hdel0), ?_, ?_, ?_, ?_, ?_, ?_⟩
  · intro h
    exact hp2a (hid20.trans h)
  · intro h
    have h2 := hp2b fun h2 => h (hid20.symm.trans h2)
    exact h2.trans (hpar1.trans hpar0)
  · intro i hi
    rw [hch2] at hi
    rcases hc1a i hi with h1 | ⟨hib, hnp⟩
    · exact Or.inl (hc0a i h1)
    · refine Or.inr ⟨hib, ?_⟩
      rw [hnp, hid0]
  · intro i hi hne
    rw [hch2]
    exact hc1b i (hc0b i hi hne)
  · intro h
    rw [hch2]
    refine hc1c ?_
    rw [hid0]
    exact h
  · intro hop hnp hbid
    have hnot1 := hc0c hop
    rw [hch2] at hbid
    rcases hc1a bid hbid with h1 | ⟨-, hnp2⟩
    · exact hnot1 h1
    · refine hnp ?_
      rw [hnp2, hid0]

/-- The three structural writes of a move preserve bidirectional
parent/children consistency. -/
theorem pcc_moveGo_store {store : List Block} {bid : Nat} {oldP newP : Option Nat}
    {norder : Int} {nd now : Nat} (hnd : idsNodup store)
    (hpcc : parentChildConsistent store) {current : Block} (hc : current ∈ store)
    (hcid : current.id = bid) (hcp : current.parentId = oldP) :
    parentChildConsistent (updateById (optPush (optPull store oldP bid now) newP bid now)
      bid (setMoved newP norder nd now)) := by
  constructor
  · intro b' hb' hlive p' hp' hbp
    rcases moveGo_store_rel hb' with ⟨qb, hqb, hidb, hdelb, hpb1, hpb2, -, -, -, -⟩
    rcases moveGo_store_rel hp' with ⟨qp, hqp, hidp, -, -, -, -, hcp2, hcp3, -⟩
    by_cases hqbid : qb.id = bid
    · have hparent := hpb1 hqbid
      rw [hparent] at hbp
      have hnp : newP = some qp.id := by rw [hbp, hidp]
      have hbidmem := hcp3 hnp
      rw [hidb, hqbid]
      exact hbidmem
    · have hparent := hpb2 hqbid
      rw [hparent] at hbp
      have hqblive : qb.deletedAt = none := hdelb.symm.trans hlive
      have h1 : qb.id ∈ qp.children :=
        hpcc.1 qb hqb hqblive qp hqp (by rw [hbp, hidp])
      have h2 : qb.id ∈ p'.children := hcp2 qb.id h1 hqbid
      rw [hidb]
      exact h2
  · intro p' hp' c' hc' hlive hmem
    rcases moveGo_store_rel hp' with ⟨qp, hqp, hidp, -, -, -, hqpc1, -, -, hqpc4⟩
    rcases moveGo_store_rel hc' with ⟨qc, hqc, hidc, hdelc, hpc1, hpc2, -, -, -, -⟩
    have hqclive : qc.deletedAt = none := hdelc.symm.trans hlive
    rcases hqpc1 c'.id hmem with hin | ⟨hcbid, hnp⟩
    · have hqcin : qc.id ∈ qp.children := hidc ▸ hin
      have hqcpar : qc.parentId = some qp.id := hpcc.2 qp hqp qc hqc hqclive hqcin
      by_cases hqcbid : qc.id = bid
      · have hqceq : qc = current :=
          eq_of_mem_of_id_eq hnd hqc hc (by rw [hqcbid, hcid])
        have hop : oldP = some qp.id := by
          rw [hqceq, hcp] at hqcpar
          exact hqcpar
        by_cases hnp2 : newP = some qp.id
        · have hcp' := hpc1 hqcbid
          rw [hcp', hnp2, hidp]
        · have hnotin := hqpc4 hop hnp2
          have hbidin : bid ∈ p'.children := by rw [← hqcbid, ← hidc]; exact hmem
          exact absurd hbidin hnotin
      · rw [hpc2 hqcbid, hqcpar, hidp]
    · have hcpar := hpc1 (hidc.symm.trans hcbid)
      rw [hcpar, hnp, hidp]

theorem pcc_moveGo {store st' : List Block} {bid : Nat} {oldP newP : Option Nat}
    {nd : Nat} {norder : Int} {now : Nat} {r : Except BlockErr Block}
    (hnd : idsNodup store) (hpcc : parentChildConsistent store) {current : Block}
    (hc : current ∈ store) (hcid : current.id = bid) (hcp : current.parentId = oldP)
    (hmg : moveGo store bid oldP newP nd norder now = (st', r)) :
    parentChildConsistent st' := by
  have hst : st' = updateById (optPush (optPull store oldP bid now) newP bid now) bid
      (setMoved newP norder nd now) := by
    simp only [moveGo] at hmg
    split at hmg <;> (injection hmg with h1 h2; exact h1.symm)
  rw [hst]
  exact pcc_moveGo_store hnd hpcc hc hcid hcp

theorem pcc_move {store st' : List Block} {uid : String} {bid : Nat} {data : BlockMove}
    {now : Nat} {b : Block} (hnd : idsNodup store) (hpcc : parentChildConsistent store)
    (hmv : moveBlock store uid bid data now = (st', .ok b)) :
    parentChildConsistent st' := by
  unfold moveBlock at hmv
  split at hmv
  next => simp at hmv
  next current hcur =>
    rcases findLiveOwned_some hcur with ⟨hcm, hcid, -, -⟩
    split at hmv
    next npid hnp =>
      split at hmv
      next => simp at hmv
      next hne =>
        split at hmv
        next => simp at hmv
        next np hnp2 => exact pcc_moveGo hnd hpcc hcm hcid rfl hmv
    next hnone => exact pcc_moveGo hnd hpcc hcm hcid rfl hmv

/-- Appending a freshly-minted root block preserves consistency. -/
theorem pcc_create_root {store : List Block} {uid : String} {data : BlockCreate}
    {ord : Int} {dep newId now : Nat} (hpcc : parentChildConsistent store)
    (hfresh : freshId store newId) :
    parentChildConsistent (store ++ [newBlockDoc uid data none ord dep newId now]) := by
  obtain ⟨hf1, hf2, hf3⟩ := hfresh
  constructor
  · intro b' hb' hlive p' hp' hbp
    rcases List.mem_append.mp hb' with hbq | hbq
    · rcases List.mem_append.mp hp' with hpq | hpq
      · exact hpcc.1 b' hbq hlive p' hpq hbp
      · have hpd : p' = newBlockDoc uid data none ord dep newId now := by simpa using hpq
        rw [hpd] at hbp
        simp only [newBlockDoc] at hbp
        exact absurd hbp (hf3 b' hbq)
    · have hbd : b' = newBlockDoc uid data none ord dep newId now := by simpa using hbq
      rw [hbd] at hbp
      simp [newBlockDoc] at hbp
  · intro p' hp' c' hc' hlive hmem
    rcases List.mem_append.mp hp' with hpq | hpq
    · rcases List.mem_append.mp hc' with hcq | hcq
      · exact hpcc.2 p' hpq c' hcq hlive hmem
      · have hcd : c' = newBlockDoc uid data none ord dep newId now := by simpa using hcq
        rw [hcd] at hmem
        simp only [newBlockDoc] at hmem
        exact absurd hmem (hf2 p' hpq)
    · have hpd : p' = newBlockDoc uid data none ord dep newId now := by simpa using hpq
      rw [hpd] at hmem
      simp [newBlockDoc] at hmem

/-- Appending a freshly-minted child block and pushing it onto its validated
parent preserves consistency. -/
theorem pcc_create_parented {store : List Block} {uid : String} {data : BlockCreate}
    {pid : Nat} {ord : Int} {dep newId now : Nat} (hpcc : parentChildConsistent store)
    (hfresh : freshId store newId) (hparent : ∃ p ∈ store, p.id = pid) :
    parentChildConsistent (updateById
      (store ++ [newBlockDoc uid data (some pid) ord dep newId now]) pid
      (pushChild newId now)) := by
  obtain ⟨hf1, hf2, hf3⟩ := hfresh
  obtain ⟨pp, hpp, hppid⟩ := hparent
  have hne : newId ≠ pid := by
    intro h
    exact hf1 (List.mem_map.mpr ⟨pp, hpp, hppid.trans h.symm⟩)
  have helim : ∀ x ∈ updateById
      (store ++ [newBlockDoc uid data (some pid) ord dep newId now]) pid
      (pushChild newId now),
      x = newBlockDoc uid data (some pid) ord dep newId now ∨
      ∃ q ∈ store, x.id = q.id ∧ x.deletedAt = q.deletedAt ∧ x.parentId = q.parentId ∧
        (∀ i ∈ x.children, i ∈ q.children ∨ (i = newId ∧ q.id = pid)) ∧
        (∀ i ∈ q.children, i ∈ x.children) ∧
        (q.id = pid → newId ∈ x.children) := by
    intro x hx
    rcases mem_updateById.mp hx with ⟨q, hq, heq⟩
    rcases List.mem_append.mp hq with hqs | hqd
    · right
      by_cases h : q.id = pid
      · rw [if_pos h] at heq
        subst heq
        refine ⟨q, hqs, rfl, rfl, rfl, ?_, ?_, fun _ => ?_⟩
        · intro i hi
          rcases List.mem_append.mp hi with h1 | h1
          · exact Or.inl h1
          · exact Or.inr ⟨by simpa using h1, h⟩
        · intro i hi
          exact List.mem_append.mpr (Or.inl hi)
        · exact List.mem_append.mpr (Or.inr (by simp))
      · rw [if_neg h] at heq
        subst heq
        exact ⟨x, hqs, rfl, rfl, rfl, fun i hi => Or.inl hi, fun i hi => hi,
          fun h2 => absurd h2 h⟩
    · left
      have hqd' : q = newBlockDoc uid data (some pid) ord dep newId now := by simpa using hqd
      subst hqd'
      rw [if_neg (by simp only [newBlockDoc]; exact hne)] at heq
      exact heq
  constructor
  · intro b' hb' hlive p' hp' hbp
    rcases helim b' hb' with hbd | ⟨qb, hqb, hidb, hdelb, hparb, -, -, -⟩
    · rw [hbd] at hbp
      simp only [newBlockDoc] at hbp
      have hpid2 : p'.id = pid := by
        injection hbp with h
        exact h.symm
      rcases helim p' hp' with hpd | ⟨qp, hqp, hidp, -, -, -, -, hpush⟩
      · rw [hpd] at hpid2
        simp only [newBlockDoc] at hpid2
        exact absurd hpid2 hne
      · have hmem2 := hpush (hidp.symm.trans hpid2)
        rw [hbd]
        simp only [newBlockDoc]
        exact hmem2
    · have hqblive : qb.deletedAt = none := hdelb.symm.trans hlive
      rw [hparb] at hbp
      rcases helim p' hp' with hpd | ⟨qp, hqp, hidp, -, -, -, hsup, -⟩
      · rw [hpd] at hbp
        simp only [newBlockDoc] at hbp
        exact absurd hbp (hf3 qb hqb)
      · have h1 : qb.id ∈ qp.children :=
          hpcc.1 qb hqb hqblive qp hqp (by rw [hbp, hidp])
        rw [hidb]
        exact hsup qb.id h1
  · intro p' hp' c' hc' hlive hmem
    rcases helim p' hp' with hpd | ⟨qp, hqp, hidp, -, -, hsub, -, -⟩
    · rw [hpd] at hmem
      simp only [newBlockDoc] at hmem
      exact absurd hmem (List.not_mem_nil c'.id)
    · rcases helim c' hc' with hcd | ⟨qc, hqc, hidc, hdelc, hparc, -, -, -⟩
      · rw [hcd] at hmem
        simp only [newBlockDoc] at hmem
        rcases hsub newId hmem with h1 | ⟨-, hqppid⟩
        · exact absurd h1 (hf2 qp hqp)
        · rw [hcd]
          simp only [newBlockDoc]
          rw [hidp, hqppid]
      · have hqclive := hdelc.symm.trans hlive
        rcases hsub c'.id hmem with h1 | ⟨hceq, hqppid⟩
        · have h2 : qc.id ∈ qp.children := hidc ▸ h1
          have h3 := hpcc.2 qp hqp qc hqc hqclive h2
          rw [hparc, h3, hidp]
        · have h2 : qc.id = newId := hidc.symm.trans hceq
          exact absurd (List.mem_map.mpr ⟨qc, hqc, h2⟩) hf1

theorem pcc_create {store st' : List Block} {uid : String} {data : BlockCreate}
    {newId now : Nat} {b : Block} (hpcc : parentChildConsistent store)
    (hfresh : freshId store newId)
    (hcr : createBlock store uid data newId now = (st', .ok b)) :
    parentChildConsistent st' := by
  unfold createBlock at hcr
  split at hcr
  next pid hpid =>
    split at hcr
    next => simp at hcr
    next parent hparent =>
      have hmem : ∃ p ∈ store, p.id = pid := by
        rcases findLiveOwned_some hparent with ⟨hm, hid, -, -⟩
        exact ⟨parent, hm, hid⟩
      simp only [createGo] at hcr
      injection hcr with h1 h2
      rw [← h1]
      exact pcc_create_parented hpcc hfresh hmem
  next hnone =>
    simp only [createGo] at hcr
    injection hcr with h1 h2
    rw [← h1]
    exact pcc_create_root hpcc hfresh

theorem mem_mark_elim {store : List Block} {ids : List Nat} {now : Nat} {x : Block}
    (hx : x ∈ store.map (fun b => if ids.contains b.id then markDeleted now b else b)) :
    ∃ q ∈ store, x.id = q.id ∧ x.parentId = q.parentId ∧ x.children = q.children ∧
      (x.deletedAt = none → q.deletedAt = none ∧ ids.contains q.id = false) := by
  rcases List.mem_map.mp hx with ⟨q, hq, heq⟩
  subst heq
  by_cases h : ids.contains q.id = true
  · rw [if_pos h]
    exact ⟨q, hq, rfl, rfl, rfl, fun h2 => absurd h2 (by simp [markDeleted])⟩
  · rw [if_neg h]
    exact ⟨q, hq, rfl, rfl, rfl, fun h2 => ⟨h2, by simpa using h⟩⟩

/-- The batch soft-delete alone preserves consistency (it only flips
`deletedAt`/`updatedAt`). -/
theorem pcc_mark {store : List Block} {ids : List Nat} {now : Nat}
    (hpcc : parentChildConsistent store) :
    parentChildConsistent
      (store.map (fun b => if ids.contains b.id then markDeleted now b else b)) := by
  constructor
  · intro b' hb' hlive p' hp' hbp
    rcases mem_mark_elim hb' with ⟨qb, hqb, hidb, hparb, -, hdelb⟩
    rcases mem_mark_elim hp' with ⟨qp, hqp, hidp, -, hchp, -⟩
    rw [hparb] at hbp
    have h1 := hpcc.1 qb hqb (hdelb hlive).1 qp hqp (by rw [hbp, hidp])
    rw [hidb, hchp]
    exact h1
  · intro p' hp' c' hc' hlive hmem
    rcases mem_mark_elim hp' with ⟨qp, hqp, hidp, -, hchp, -⟩
    rcases mem_mark_elim hc' with ⟨qc, hqc, hidc, hparc, -, hdelc⟩
    rw [hchp] at hmem
    have h1 : qc.id ∈ qp.children := hidc ▸ hmem
    have h2 := hpcc.2 qp hqp qc hqc (hdelc hlive).1 h1
    rw [hparc, h2, hidp]

/-- The batch soft-delete followed by the parent `$pull` preserves
consistency, provided the pulled id is part of the deleted batch. -/
theorem pcc_mark_pull {store : List Block} {ids : List Nat} {pid bid now : Nat}
    (hpcc : parentChildConsistent store) (hbid : ids.contains bid = true) :
    parentChildConsistent (updateById
      (store.map (fun b => if ids.contains b.id then markDeleted now b else b)) pid
      (pullChild bid now)) := by
  have helim : ∀ x ∈ updateById
      (store.map (fun b => if ids.contains b.id then markDeleted now b else b)) pid
      (pullChild bid now),
      ∃ q ∈ store, x.id = q.id ∧ x.parentId = q.parentId ∧
        (x.deletedAt = none → q.deletedAt = none ∧ ids.contains q.id = false) ∧
        (∀ i ∈ x.children, i ∈ q.children) ∧
        (∀ i ∈ q.children, i ≠ bid → i ∈ x.children) := by
    intro x hx
    rcases mem_updateById.mp hx with ⟨q1, hq1, heq⟩
    rcases mem_mark_elim hq1 with ⟨q0, hq0, hid, hpar, hch, hdel⟩
    by_cases h : q1.id = pid
    · rw [if_pos h] at heq
      subst heq
      refine ⟨q0, hq0, hid, hpar, hdel, ?_, ?_⟩
      · intro i hi
        rw [← hch]
        exact List.mem_of_mem_filter hi
      · intro i hi hne
        refine List.mem_filter.mpr ⟨?_, by simpa using hne⟩
        rw [hch]
        exact hi
    · rw [if_neg h] at heq
      subst heq
      refine ⟨q0, hq0, hid, hpar, hdel, ?_, ?_⟩
      · intro i hi
        rw [← hch]
        exact hi
      · intro i hi _
        rw [hch]
        exact hi
  constructor
  · intro b' hb' hlive p' hp' hbp
    rcases helim b' hb' with ⟨qb, hqb, hidb, hparb, hdelb, -, -⟩
    rcases helim p' hp' with ⟨qp, hqp, hidp, -, -, -, hsur⟩
    obtain ⟨hqblive, hqbnotin⟩ := hdelb hlive
    have hbne : qb.id ≠ bid := by
      intro h
      rw [h] at hqbnotin
      rw [hqbnotin] at hbid
      exact Bool.noConfusion hbid
    rw [hparb] at hbp
    have h1 : qb.id ∈ qp.children := hpcc.1 qb hqb hqblive qp hqp (by rw [hbp, hidp])
    rw [hidb]
    exact hsur qb.id h1 hbne
  · intro p' hp' c' hc' hlive hmem
    rcases helim p' hp' with ⟨qp, hqp, hidp, -, -, hsubp, -⟩
    rcases helim c' hc' with ⟨qc, hqc, hidc, hparc, hdelc, -, -⟩
    have h1 : qc.id ∈ qp.children := hidc ▸ (hsubp c'.id hmem)
    have h2 := hpcc.2 qp hqp qc hqc (hdelc hlive).1 h1
    rw [hparc, h2, hidp]

theorem pcc_delete {store st' : List Block} {uid : String} {bid now : Nat}
    {r : Except BlockErr Unit} (hpcc : parentChildConsistent store)
    (hdel : deleteBlock store uid bid now = (st', r)) :
    parentChildConsistent st' := by
  unfold deleteBlock at hdel
  split at hdel
  next =>
    injection hdel with h1 h2
    rw [← h1]
    exact hpcc
  next doc0 hfind =>
    split at hdel
    next =>
      injection hdel with h1 h2
      rw [← h1]
      exact hpcc
    next doc hfind2 =>
      cases hpar : doc.parentId with
      | none =>
        rw [hpar] at hdel
        injection hdel with h1 h2
        rw [← h1]
        exact pcc_mark hpcc
      | some pid =>
        rw [hpar] at hdel
        injection hdel with h1 h2
        rw [← h1]
        exact pcc_mark_pull hpcc (contains_of_mem (List.mem_cons_self _ _))

/-- C2: every operation preserves bidirectional parent/children consistency:
`createBlock` (with a freshly minted id), `moveBlock` (with pairwise-distinct
ids) and `deleteBlock`, whenever they succeed, map a consistent store to a
consistent store. -/
theorem claim2_bidirectional_consistency (store : List Block)
    (hpcc : parentChildConsistent store) :
    (∀ (uid : String) (data : BlockCreate) (newId now : Nat) (st' : List Block) (b : Block),
      freshId store newId → createBlock store uid data newId now = (st', .ok b) →
      parentChildConsistent st') ∧
    (∀ (uid : String) (bid : Nat) (data : BlockMove) (now : Nat) (st' : List Block) (b : Block),
      idsNodup store → moveBlock store uid bid data now = (st', .ok b) →
      parentChildConsistent st') ∧
    (∀ (uid : String) (bid now : Nat) (st' : List Block),
      deleteBlock store uid bid now = (st', .ok ()) → parentChildConsistent st') :=
  ⟨fun _ _ _ _ _ _ hf hcr => pcc_create hpcc hf hcr,
   fun _ _ _ _ _ _ hnd hmv => pcc_move hnd hpcc hmv,
   fun _ _ _ _ hdel => pcc_delete hpcc hdel⟩

/-- A create request targeting parent `A` with an explicit order. -/
def reqCreateChildOfA : BlockCreate :=
  { parentId := some 1, content := ⟨"n"⟩, blockType := "bullet", blockProps := none,
    uiState := none, order := some 7 }

/-- Closed instance of C2 on the fixture store: creating a child of `A`,
moving `R` under `A`, and deleting the subtree at `B` all leave the store
bidirectionally consistent. -/
theorem claim2_witness :
    parentChildConsistent (createBlock storeW "u" reqCreateChildOfA 6 9).1 ∧
    parentChildConsistent
      (moveBlock storeW "u" 5 { newParentId := some 1, newOrder := 2 } 9).1 ∧
    parentChildConsistent (deleteBlock storeW "u" 2 9).1 :=
  ⟨(claim2_bidirectional_consistency storeW
      (by unfold parentChildConsistent; decide)).1 "u" reqCreateChildOfA 6 9 _
      (newBlockDoc "u" reqCreateChildOfA (some 1) 7 1 6 9)
      (by unfold freshId; decide) rfl,
   (claim2_bidirectional_consistency storeW
      (by unfold parentChildConsistent; decide)).2.1 "u" 5
      { newParentId := some 1, newOrder := 2 } 9 _ (setMoved (some 1) 2 1 9 blkR)
      (by unfold idsNodup; decide) (by decide),
   (claim2_bidirectional_consistency storeW
      (by unfold parentChildConsistent; decide)).2.2 "u" 2 9 _ (by decide)⟩
